import Mathlib

set_option autoImplicit false

/-!
Verification development for the `golden-retriever` repository.

The Go sources are shallowly embedded: Go strings become Lean `String`
(or `List Char` where character-level work is needed), Go maps become
association lists, pointer mutation becomes explicit state passing, and
fallible calls return `Except`/`Option`.  Each definition mirrors the
source function of the same name; deviations (missing source files that
are modelled from the specification) are flagged in the doc comment.
-/

namespace GoldenRetriever

/-! ## Reference model — src/retriever/ref.go -/

/-- A character accepted by the class `[a-fA-F0-9]` used in `isHash`. -/
def isHexChar (c : Char) : Bool :=
  ('a' ≤ c && c ≤ 'f') || ('A' ≤ c && c ≤ 'F') || ('0' ≤ c && c ≤ '9')

/-- Go `type Hash [40]byte`.  Bytes are modelled as characters; the Go
type always holds exactly 40 bytes, and every value built through
`NewHash` has exactly 40 characters here. -/
structure Hash where
  bytes : List Char
deriving DecidableEq, Repr

/-- `ZeroHash` — the zero value of `[40]byte` (40 NUL bytes). -/
def ZeroHash : Hash := ⟨List.replicate 40 (Char.ofNat 0)⟩

/-- `Hash.String()` — `string(h[:])`. -/
def Hash.str (h : Hash) : String := ⟨h.bytes⟩

/-- `isHash` from ref.go: the length must be 40 and the *unanchored*
pattern `[a-fA-F0-9]{40}` must match, i.e. some window of 40 consecutive
characters is all hex (under the length guard this makes the whole
string hex). -/
def isHash (s : String) : Bool :=
  s.length == 40 &&
    (List.range (s.data.length - 39)).any
      (fun i => ((s.data.drop i).take 40).all isHexChar)

/-- `NewHash` from ref.go: reject unless `isHash`, else copy the bytes. -/
def NewHash (s : String) : Except String Hash :=
  if isHash s then .ok ⟨s.data⟩ else .error "Invalid commit SHA"

/-- `Hash.IsZero()`. -/
def Hash.IsZero (h : Hash) : Bool := h == ZeroHash

/-- `Hash.IsValid()`. -/
def Hash.IsValid (h : Hash) : Bool := isHash h.str

/-- The constant `HEAD`. -/
def HEAD : String := "HEAD"

/-- `Reference` from ref.go: a name and an optional (possibly zero) hash. -/
structure Reference where
  name : String
  hash : Hash
deriving DecidableEq, Repr

/-- `NewSymbolicReference`. -/
def NewSymbolicReference (n : String) : Reference := ⟨n, ZeroHash⟩

/-- `NewHashReference`: requires a valid hash. -/
def NewHashReference (h : Hash) : Except String Reference :=
  if h.IsValid then .ok ⟨"", h⟩ else .error ("Invalid commit SHA " ++ h.str)

/-- `HEADReference`. -/
def HEADReference : Reference := ⟨HEAD, ZeroHash⟩

/-- `NewReference` from ref.go. -/
def NewReference (n : String) (h : Hash) : Except String Reference :=
  if n == "" && h.IsZero then .ok HEADReference
  else if h.IsValid || h.IsZero then .ok ⟨n, h⟩
  else .error ("Invalid commit SHA " ++ h.str)

/-- `Reference.SetName` (mutation modelled as returning the new value). -/
def Reference.SetName (r : Reference) (n : String) : Reference :=
  { r with name := n }

/-- `Reference.SetHash`: returns the error (if any) together with the
post-state of the receiver — on a zero hash the method errors before the
assignment, so the reference is unchanged. -/
def Reference.SetHash (r : Reference) (h : Hash) : Option String × Reference :=
  if h.IsZero then (some "Invalid commit SHA", r) else (none, { r with hash := h })

/-- `Reference.IsHEAD()`. -/
def Reference.IsHEAD (r : Reference) : Bool := r.name == HEAD

/-- `Reference.IsHash()`. -/
def Reference.IsHash (r : Reference) : Bool := !r.hash.IsZero

/-- Modelled from the spec: `Reference.IsEmpty` is called by
src/pinner/pinner.go but its definition is absent from the ref.go under
src; per the spec's reference model an empty reference carries no name
and an unset (zero) hash. -/
def Reference.IsEmpty (r : Reference) : Bool := r.name == "" && r.hash.IsZero

/-- The references constructible through the public constructors and
mutators of ref.go. -/
inductive ReachableRef : Reference → Prop where
  | symbolic (n : String) : ReachableRef (NewSymbolicReference n)
  | hashRef (h : Hash) (r : Reference) :
      NewHashReference h = .ok r → ReachableRef r
  | head : ReachableRef HEADReference
  | newRef (n : String) (h : Hash) (r : Reference) :
      NewReference n h = .ok r → ReachableRef r
  | setHash (r : Reference) (h : Hash) :
      ReachableRef r → ReachableRef (r.SetHash h).2
  | setName (r : Reference) (n : String) :
      ReachableRef r → ReachableRef (r.SetName n)

/-- C7: for every reference constructible through the public
constructors and mutators, `IsHash()` is true iff the stored hash is
non-zero, and `SetHash` with a zero hash errors while leaving the
reference unchanged. -/
theorem C7_isHash_iff_nonzero_and_setHash_zero_rejected
    (r : Reference) (h : Hash) (_hr : ReachableRef r) (hz : h.IsZero = true) :
    (r.IsHash = true ↔ r.hash ≠ ZeroHash) ∧
    (r.SetHash h).1 = some "Invalid commit SHA" ∧ (r.SetHash h).2 = r := by
  refine ⟨?_, ?_, ?_⟩
  · simp [Reference.IsHash, Hash.IsZero]
  · simp [Reference.SetHash, hz]
  · simp [Reference.SetHash, hz]

/-- Witness for C7 at the HEAD reference and the zero hash. -/
theorem C7_isHash_iff_nonzero_and_setHash_zero_rejected_witness :
    (HEADReference.IsHash = true ↔ HEADReference.hash ≠ ZeroHash) ∧
    (HEADReference.SetHash ZeroHash).1 = some "Invalid commit SHA" ∧
    (HEADReference.SetHash ZeroHash).2 = HEADReference :=
  C7_isHash_iff_nonzero_and_setHash_zero_rejected HEADReference ZeroHash
    ReachableRef.head (by decide)

/-- C6: every 40-character hex string is accepted by `NewHash` and
round-trips through `Hash.String`; every string whose length is not 40
is rejected. -/
theorem C6_newHash_roundtrip_and_length :
    (∀ s : String, s.length = 40 → s.data.all isHexChar = true →
      ∃ h : Hash, NewHash s = .ok h ∧ h.str = s ∧ NewHash h.str = .ok h) ∧
    (∀ t : String, t.length ≠ 40 → NewHash t = .error "Invalid commit SHA") := by
  constructor
  · intro s hlen hhex
    have hdata : s.data.length = 40 := hlen
    have hh : isHash s = true := by
      simp only [isHash, hdata, hlen, beq_self_eq_true, Bool.true_and]
      refine List.any_eq_true.mpr ⟨0, by simp, ?_⟩
      have h40 : (s.data.drop 0).take 40 = s.data := by
        rw [List.drop_zero]; exact List.take_of_length_le hdata.le
      rw [h40]; exact hhex
    refine ⟨⟨s.data⟩, ?_, ?_, ?_⟩
    · simp [NewHash, hh]
    · rfl
    · have : Hash.str ⟨s.data⟩ = s := rfl
      rw [this]
      simp [NewHash, hh]
  · intro t hne
    have hh : isHash t = false := by
      simp only [isHash, Bool.and_eq_false_iff]
      left
      simpa using hne
    simp [NewHash, hh]

/-- Witness for C6 at a concrete 40-hex hash and a short string. -/
theorem C6_newHash_roundtrip_and_length_witness :
    (∃ h : Hash, NewHash "6a27bac5e5c379649c5b4574845744957cd6c749" = .ok h ∧
      h.str = "6a27bac5e5c379649c5b4574845744957cd6c749" ∧ NewHash h.str = .ok h) ∧
    NewHash "abc" = .error "Invalid commit SHA" :=
  ⟨C6_newHash_roundtrip_and_length.1 _ (by decide) (by decide),
   C6_newHash_roundtrip_and_length.2 "abc" (by decide)⟩

/-- C10: `NewReference` with empty name and zero hash yields the HEAD
reference; with any non-zero invalid hash it errors regardless of the
name. -/
theorem C10_newReference_head_default_and_invalid_hash :
    NewReference "" ZeroHash = .ok HEADReference ∧
    HEADReference.name = HEAD ∧ HEADReference.hash = ZeroHash ∧
    (∀ (n : String) (h : Hash), h.IsZero = false → h.IsValid = false →
      NewReference n h = .error ("Invalid commit SHA " ++ h.str)) := by
  refine ⟨by rfl, rfl, rfl, ?_⟩
  intro n h hz hv
  simp [NewReference, hz, hv]

/-- Witness for C10 at a concrete non-zero, non-40-hex hash. -/
theorem C10_newReference_head_default_and_invalid_hash_witness :
    NewReference "x" ⟨['z']⟩ = .error ("Invalid commit SHA " ++ Hash.str ⟨['z']⟩) :=
  C10_newReference_head_default_and_invalid_hash.2.2.2 "x" ⟨['z']⟩
    (by decide) (by decide)

/-! ## Association lists — Go maps are modelled as association lists
with last-write-wins update. -/

/-- Go map read `m[k]`. -/
def lookupA {α : Type} : List (String × α) → String → Option α
  | [], _ => none
  | (k₁, v) :: rest, k => if k₁ == k then some v else lookupA rest k

/-- Go map write `m[k] = v` (replace or insert). -/
def setA {α : Type} : List (String × α) → String → α → List (String × α)
  | [], k, v => [(k, v)]
  | (k₁, v₁) :: rest, k, v =>
    if k₁ == k then (k, v) :: rest else (k₁, v₁) :: setA rest k v

/-- Go map `delete(m, k)`. -/
def eraseA {α : Type} : List (String × α) → String → List (String × α)
  | [], _ => []
  | (k₁, v) :: rest, k =>
    if k₁ == k then eraseA rest k else (k₁, v) :: eraseA rest k

theorem lookupA_setA_self {α : Type} (l : List (String × α)) (k : String) (v : α) :
    lookupA (setA l k v) k = some v := by
  induction l with
  | nil => simp [setA, lookupA]
  | cons p rest ih =>
    obtain ⟨k₁, v₁⟩ := p
    by_cases h : k₁ = k
    · simp [setA, lookupA, h]
    · simp [setA, lookupA, h, ih]

theorem lookupA_setA_other {α : Type} (l : List (String × α)) (k k₂ : String) (v : α)
    (h : k₂ ≠ k) : lookupA (setA l k v) k₂ = lookupA l k₂ := by
  have hk : ¬ k = k₂ := fun hh => h hh.symm
  induction l with
  | nil => simp [setA, lookupA, hk]
  | cons p rest ih =>
    obtain ⟨k₁, v₁⟩ := p
    by_cases h₁ : k₁ = k
    · subst h₁
      simp [setA, lookupA, hk]
    · by_cases h₂ : k₁ = k₂
      · subst h₂
        simp [setA, lookupA, h₁]
      · simp [setA, lookupA, h₁, h₂, ih]

theorem lookupA_eraseA_self {α : Type} (l : List (String × α)) (k : String) :
    lookupA (eraseA l k) k = none := by
  induction l with
  | nil => simp [eraseA, lookupA]
  | cons p rest ih =>
    obtain ⟨k₁, v₁⟩ := p
    by_cases h : k₁ = k
    · simp [eraseA, h, ih]
    · simp [eraseA, lookupA, h, ih]

theorem lookupA_eraseA_other {α : Type} (l : List (String × α)) (k k₂ : String)
    (h : k₂ ≠ k) : lookupA (eraseA l k) k₂ = lookupA l k₂ := by
  have hk : ¬ k = k₂ := fun hh => h hh.symm
  induction l with
  | nil => simp [eraseA]
  | cons p rest ih =>
    obtain ⟨k₁, v₁⟩ := p
    by_cases h₁ : k₁ = k
    · subst h₁
      simp [eraseA, lookupA, hk, ih]
    · by_cases h₂ : k₁ = k₂
      · subst h₂
        simp [eraseA, lookupA, h₁]
      · simp [eraseA, lookupA, h₁, h₂, ih]

/-! ## Per-repository serialization — src/once/once.go -/

/-- The `Once` queue (`map[string][]chan bool`) together with a
fresh-channel allocator; channels are modelled by numeric identifiers. -/
structure Once where
  queue : List (String × List Nat)
  nextChan : Nat
deriving Repr

/-- `NewOnce`. -/
def NewOnce : Once := ⟨[], 0⟩

/-- `Once.Register`: if the key is absent, insert an empty waiter list
and return nil (`none`); otherwise allocate a fresh channel, append it
to the key's waiter list and return it. -/
def Once.Register (o : Once) (k : String) : Option Nat × Once :=
  match lookupA o.queue k with
  | some cs =>
    (some o.nextChan, ⟨setA o.queue k (cs ++ [o.nextChan]), o.nextChan + 1⟩)
  | none => (none, ⟨setA o.queue k [], o.nextChan⟩)

/-- `Once.Unregister`: send one signal on every queued channel (the
returned list, in queue order) and delete the key; a missing key is a
no-op. -/
def Once.Unregister (o : Once) (k : String) : List Nat × Once :=
  match lookupA o.queue k with
  | none => ([], o)
  | some cs => (cs, ⟨eraseA o.queue k, o.nextChan⟩)

/-- Channel identifiers queued in a `Once` are distinct and below the
allocator counter (holds for every state reachable from `NewOnce`). -/
def Once.WF (o : Once) : Prop :=
  ∀ k cs, lookupA o.queue k = some cs → cs.Nodup ∧ ∀ c ∈ cs, c < o.nextChan

/-- C3: `Register` on an absent key inserts an empty list and returns
nil; on a present key it appends a fresh channel (one queued nowhere
else) and returns it; `Unregister` on a present key signals every queued
channel once and removes the key; `Unregister` on an absent key is a
no-op. -/
theorem C3_once_register_unregister (o : Once) (k : String) (hwf : Once.WF o) :
    (lookupA o.queue k = none →
      (o.Register k).1 = none ∧
      lookupA (o.Register k).2.queue k = some [] ∧
      ∀ k₂, k₂ ≠ k → lookupA (o.Register k).2.queue k₂ = lookupA o.queue k₂) ∧
    (∀ cs, lookupA o.queue k = some cs →
      ∃ c, (o.Register k).1 = some c ∧
        lookupA (o.Register k).2.queue k = some (cs ++ [c]) ∧
        (∀ k₂ cs₂, lookupA o.queue k₂ = some cs₂ → c ∉ cs₂) ∧
        ∀ k₂, k₂ ≠ k → lookupA (o.Register k).2.queue k₂ = lookupA o.queue k₂) ∧
    (∀ cs, lookupA o.queue k = some cs →
      (o.Unregister k).1 = cs ∧ cs.Nodup ∧
      lookupA (o.Unregister k).2.queue k = none ∧
      ∀ k₂, k₂ ≠ k → lookupA (o.Unregister k).2.queue k₂ = lookupA o.queue k₂) ∧
    (lookupA o.queue k = none → (o.Unregister k).1 = [] ∧ (o.Unregister k).2 = o) := by
  refine ⟨?_, ?_, ?_, ?_⟩
  · intro habs
    refine ⟨by simp [Once.Register, habs], ?_, ?_⟩
    · simp only [Once.Register, habs]
      exact lookupA_setA_self _ _ _
    · intro k₂ h
      simp only [Once.Register, habs]
      exact lookupA_setA_other _ _ _ _ h
  · intro cs hcs
    refine ⟨o.nextChan, ?_, ?_, ?_, ?_⟩
    · simp [Once.Register, hcs]
    · simp only [Once.Register, hcs]
      exact lookupA_setA_self _ _ _
    · intro k₂ cs₂ h₂ hmem
      exact absurd ((hwf k₂ cs₂ h₂).2 _ hmem) (lt_irrefl _)
    · intro k₂ h
      simp only [Once.Register, hcs]
      exact lookupA_setA_other _ _ _ _ h
  · intro cs hcs
    refine ⟨by simp [Once.Unregister, hcs], (hwf k cs hcs).1, ?_, ?_⟩
    · simp only [Once.Unregister, hcs]
      exact lookupA_eraseA_self _ _
    · intro k₂ h
      simp only [Once.Unregister, hcs]
      exact lookupA_eraseA_other _ _ _ h
  · intro habs
    simp [Once.Unregister, habs]

/-- Witness for C3: registering a fresh key on the empty queue holds the
slot (returns nil) and leaves an empty waiter list behind. -/
theorem C3_once_register_unregister_witness :
    (NewOnce.Register "github.com/foo/bar").1 = none ∧
    lookupA (NewOnce.Register "github.com/foo/bar").2.queue "github.com/foo/bar" =
      some [] ∧
    ∀ k₂, k₂ ≠ "github.com/foo/bar" →
      lookupA (NewOnce.Register "github.com/foo/bar").2.queue k₂ =
        lookupA NewOnce.queue k₂ :=
  (C3_once_register_unregister NewOnce "github.com/foo/bar"
    (by intro k cs h; simp [NewOnce, lookupA] at h)).1 rfl

/-! ## Pinner — src/pinner/pinner.go and mod.go -/

/-- `Import` from mod.go: the stored reference name (empty when the pin
was made against HEAD) and the pinned hash string. -/
structure Import where
  Ref : String
  Pinned : String
deriving DecidableEq, Repr

/-- The mod state: the in-memory imports map and the persisted file
contents.  `Save` re-serializes the imports map, so the persisted
payload is modelled as the marshalled imports. -/
structure Mod where
  Imports : List (String × Import)
  persisted : List (String × Import)
deriving DecidableEq, Repr

/-- `Mod.GetImport`. -/
def Mod.GetImport (m : Mod) (repo : String) : Option Import :=
  lookupA m.Imports repo

/-- `Mod.SetImport`. -/
def Mod.SetImport (m : Mod) (repo : String) (im : Import) : Mod :=
  { m with Imports := setA m.Imports repo im }

/-- `Mod.Save`: write the marshalled imports to the mod file. -/
def Mod.Save (m : Mod) : Mod := { m with persisted := m.Imports }

/-- `Resource` from src/retriever/retriever.go; the reference is a
pointer and may be nil. -/
structure Resource where
  Repo : String
  Filepath : String
  Ref : Option Reference
deriving Repr

/-- `Pinner.Retrieve` from src/pinner/pinner.go.  The inner retriever is
a parameter: it receives the (possibly rewritten) resource and returns
the content together with the reference it leaves on the resource (Go
retrievers mutate `resource.Ref` in place).  The result is the returned
content-or-error together with the post-call mod state and resource. -/
def PinnerRetrieve (inner : Resource → Except String (String × Option Reference))
    (m : Mod) (res : Resource) : Except String String × Mod × Resource :=
  let onlyHash : Bool :=
    match res.Ref with
    | some r => r.IsHash && r.name == ""
    | none => false
  let found := lookupA m.Imports res.Repo
  let rewritten : Except String Resource :=
    match found with
    | some i =>
      if onlyHash then .ok res
      else
        let case1 : Bool :=
          match res.Ref with
          | none => true
          | some r => r.IsHEAD || r.IsEmpty || r.name == i.Ref
        let case2 : Bool :=
          match res.Ref with
          | none => false
          | some r => r.name != "" && i.Ref != "" && r.name != i.Ref
        let case3 : Bool :=
          match res.Ref with
          | none => false
          | some r => r.name != "" && r.name == i.Ref && r.hash.str != i.Pinned
        if case1 then
          match NewHash i.Pinned with
          | .error e => .error e
          | .ok h =>
            match NewReference i.Ref h with
            | .error e =>
              .error ("Module ref " ++ i.Ref ++ " and pinned " ++ i.Pinned ++
                " error: " ++ e)
            | .ok r₂ => .ok { res with Ref := some r₂ }
        else if case2 then
          .error (match res.Ref with
            | some r => "cannot import multiple versions (" ++ r.name ++ ", " ++
                i.Ref ++ ") of a single repo " ++ res.Repo
            | none => "")
        else if case3 then
          .error (match res.Ref with
            | some r => "reference name " ++ r.name ++ " and commit SHA " ++
                r.hash.str ++ " not match"
            | none => "")
        else .ok res
    | none => .ok res
  match rewritten with
  | .error e => (.error e, m, res)
  | .ok res₁ =>
    match inner res₁ with
    | .error e => (.error e, m, res₁)
    | .ok (content, ref₂) =>
      let res₂ := { res₁ with Ref := ref₂ }
      if found.isNone && !onlyHash then
        match ref₂ with
        | none => (.error "nil reference", m, res₂)
        | some r =>
          let im : Import :=
            { Ref := if r.name != "" && r.name != HEAD then r.name else ""
              Pinned := r.hash.str }
          (.ok content, (m.SetImport res.Repo im).Save, res₂)
      else (.ok content, m, res₂)

/-- A mod state holding a single pin `master ↦ 133416…` for the test
repository, with matching persisted contents. -/
def modMaster : Mod :=
  ⟨[("github.com/foo/bar",
      ⟨"master", "133416d690dbffc8fe321e12bdd4f21d79e2a479"⟩)],
   [("github.com/foo/bar",
      ⟨"master", "133416d690dbffc8fe321e12bdd4f21d79e2a479"⟩)]⟩

/-- An inner retriever that always succeeds, leaving the resolved pinned
hash on the reference it was handed. -/
def innerOk : Resource → Except String (String × Option Reference) :=
  fun res => .ok ("content in HEAD", res.Ref)

/-- Counterexample for C1: with stored name `master`, an incoming
reference named `HEAD` (a non-empty name distinct from `master`) does
not fail — the pinner rewrites it to the stored pin and delegates, so
the call succeeds. -/
theorem C1_counterexample_head_name_succeeds :
    (PinnerRetrieve innerOk modMaster
      ⟨"github.com/foo/bar", "baz.md", some HEADReference⟩).1 =
      .ok "content in HEAD" ∧
    (PinnerRetrieve innerOk modMaster
      ⟨"github.com/foo/bar", "baz.md", some HEADReference⟩).1 ≠
      .error ("cannot import multiple versions (HEAD, master) of a single repo " ++
        "github.com/foo/bar") := by
  constructor
  · rfl
  · intro h
    rw [show (PinnerRetrieve innerOk modMaster
      ⟨"github.com/foo/bar", "baz.md", some HEADReference⟩).1 =
      .ok "content in HEAD" from rfl] at h
    exact Except.noConfusion h

/-- C1 (amended: the incoming name must also differ from `HEAD`; an
incoming reference literally named `HEAD` takes the overwrite branch
instead): with a stored entry `(ref=X ≠ "", pinned=H)` and an incoming
reference carrying a non-empty name `Y ∉ {X, HEAD}`, `Retrieve` fails
with `cannot import multiple versions (Y, X) of a single repo <repo>`
and leaves the mod state (in-memory imports and persisted contents) and
the resource unchanged. -/
theorem C1_pin_conflict_fails_without_mutation
    (inner : Resource → Except String (String × Option Reference))
    (m : Mod) (res : Resource) (r : Reference) (i : Import)
    (hfound : lookupA m.Imports res.Repo = some i)
    (href : res.Ref = some r)
    (hname : r.name ≠ "") (hnh : r.name ≠ HEAD)
    (hstored : i.Ref ≠ "") (hne : r.name ≠ i.Ref) :
    PinnerRetrieve inner m res =
      (.error ("cannot import multiple versions (" ++ r.name ++ ", " ++ i.Ref ++
        ") of a single repo " ++ res.Repo), m, res) := by
  have hHEAD : (r.name == HEAD) = false := by simp [hnh]
  have hEmpty : (r.name == "") = false := by simp [hname]
  have hEq : (r.name == i.Ref) = false := by simp [hne]
  simp only [PinnerRetrieve, hfound, href, Reference.IsHEAD, Reference.IsHash,
    Reference.IsEmpty, hHEAD, hEmpty, hEq, Bool.false_and, Bool.false_or,
    Bool.and_false, bne, Bool.not_false, Bool.true_and, Bool.and_true,
    Bool.not_true, Bool.and_self, if_false, if_true]
  simp [hstored]

/-- Witness for C1 at the concrete conflict from the repository's own
pinner test: stored `master`, incoming `v1`. -/
theorem C1_pin_conflict_fails_without_mutation_witness :
    PinnerRetrieve innerOk modMaster
      ⟨"github.com/foo/bar", "baz.md", some (NewSymbolicReference "v1")⟩ =
      (.error ("cannot import multiple versions (v1, master) of a single repo " ++
        "github.com/foo/bar"), modMaster,
       ⟨"github.com/foo/bar", "baz.md", some (NewSymbolicReference "v1")⟩) :=
  C1_pin_conflict_fails_without_mutation innerOk modMaster
    ⟨"github.com/foo/bar", "baz.md", some (NewSymbolicReference "v1")⟩
    (NewSymbolicReference "v1")
    ⟨"master", "133416d690dbffc8fe321e12bdd4f21d79e2a479"⟩
    (by rfl) (by rfl) (by decide) (by decide) (by decide) (by decide)

/-- Counterexample for C4: with stored `(master, 133416…)` and an
incoming reference named `master` carrying the *different* hash
`233416…`, `Retrieve` does not fail with the `reference name … not
match` error — the name-equality disjunct of the first switch case fires
first, the reference is overwritten with the stored pin, and the call
succeeds. -/
theorem C4_counterexample_name_match_hash_mismatch_succeeds :
    (PinnerRetrieve innerOk modMaster
      ⟨"github.com/foo/bar", "baz.md",
        some ⟨"master", ⟨"233416d690dbffc8fe321e12bdd4f21d79e2a479".data⟩⟩⟩).1 =
      .ok "content in HEAD" ∧
    ∀ e, (PinnerRetrieve innerOk modMaster
      ⟨"github.com/foo/bar", "baz.md",
        some ⟨"master", ⟨"233416d690dbffc8fe321e12bdd4f21d79e2a479".data⟩⟩⟩).1 ≠
      .error e := by
  constructor
  · rfl
  · intro e h
    rw [show (PinnerRetrieve innerOk modMaster
      ⟨"github.com/foo/bar", "baz.md",
        some ⟨"master", ⟨"233416d690dbffc8fe321e12bdd4f21d79e2a479".data⟩⟩⟩).1 =
      .ok "content in HEAD" from rfl] at h
    exact Except.noConfusion h

/-- C4 (amended: the `reference name <name> and commit SHA <hash> not
match` branch is unreachable — whenever the incoming name equals the
stored name, the first switch case applies): with a stored entry and an
incoming reference whose non-empty name equals the stored ref name, the
reference is overwritten with the stored `(ref, pinned)` pair —
regardless of any hash mismatch — and the call is delegated to the inner
retriever with the mod state unchanged. -/
theorem C4_name_match_overwrites_with_pin
    (inner : Resource → Except String (String × Option Reference))
    (m : Mod) (res : Resource) (r rp : Reference) (i : Import) (hp : Hash)
    (hfound : lookupA m.Imports res.Repo = some i)
    (href : res.Ref = some r)
    (hname : r.name ≠ "") (heq : r.name = i.Ref)
    (hhash : NewHash i.Pinned = .ok hp)
    (hrp : NewReference i.Ref hp = .ok rp) :
    PinnerRetrieve inner m res =
      (match inner { res with Ref := some rp } with
       | .error e => (.error e, m, { res with Ref := some rp })
       | .ok (c, ref₂) => (.ok c, m, { res with Ref := ref₂ })) := by
  have hEq : (r.name == i.Ref) = true := by simp [heq]
  have hEmpty : (r.name == "") = false := by simp [hname]
  simp only [PinnerRetrieve, hfound, href, Reference.IsHEAD, Reference.IsHash,
    Reference.IsEmpty, hEq, hEmpty, Bool.false_and, Bool.and_false,
    Bool.or_true, Bool.and_true, if_true, hhash, hrp]
  cases hin : inner { res with Ref := some rp } with
  | error e => simp [hin]
  | ok p => cases p; simp [hin]

/-- The incoming resource of the C4 scenario: name `master`, hash
`233416…` (mismatching the stored pin). -/
def resMismatch : Resource :=
  ⟨"github.com/foo/bar", "baz.md",
    some ⟨"master", ⟨"233416d690dbffc8fe321e12bdd4f21d79e2a479".data⟩⟩⟩

/-- The resource after the pinner conformed it to the stored pin. -/
def resConformed : Resource :=
  ⟨"github.com/foo/bar", "baz.md",
    some ⟨"master", ⟨"133416d690dbffc8fe321e12bdd4f21d79e2a479".data⟩⟩⟩

/-- Witness for C4 at the concrete state of the counterexample: the
incoming `master` reference with hash `233416…` is conformed to the
stored pin `133416…` and delegated. -/
theorem C4_name_match_overwrites_with_pin_witness :
    PinnerRetrieve innerOk modMaster resMismatch =
      (match innerOk resConformed with
       | .error e => (.error e, modMaster, resConformed)
       | .ok (c, ref₂) =>
         (.ok c, modMaster, { resMismatch with Ref := ref₂ })) :=
  C4_name_match_overwrites_with_pin innerOk modMaster resMismatch
    ⟨"master", ⟨"233416d690dbffc8fe321e12bdd4f21d79e2a479".data⟩⟩
    ⟨"master", ⟨"133416d690dbffc8fe321e12bdd4f21d79e2a479".data⟩⟩
    ⟨"master", "133416d690dbffc8fe321e12bdd4f21d79e2a479"⟩
    ⟨"133416d690dbffc8fe321e12bdd4f21d79e2a479".data⟩
    (by rfl) (by rfl) (by decide) (by rfl) (by rfl) (by rfl)

/-! ## Authenticator chain — src/retriever/git/retriever.go
(`NewWithOptions`, to which `New` and `NewWithCache` delegate) and the
per-operation iteration loops (`withAuth0`/`withAuth1` and the loops in
`CloneWithOpts`, `FetchRefSpec`, `FetchCommitWithOpts`). -/

/-- `Credential` from auth.go. -/
structure Credential where
  Username : String
  Password : String
deriving DecidableEq, Repr

/-- `SSHKey` from auth.go. -/
structure SSHKey where
  PrivateKey : String
  PrivateKeyPassword : String
deriving DecidableEq, Repr

/-- The closed set of authenticators.  `None` is the anonymous method.
`Local` is modelled from the spec (its source file is not under src):
the local-file method serves `<repo>` verbatim and is appended only when
local access is allowed. -/
inductive Authenticator where
  | SSHAgent
  | SSHKeyAuth (keys : List (String × SSHKey))
  | BasicAuth (creds : List (String × Credential))
  | None
  | Local
deriving DecidableEq, Repr

/-- `Authenticator.Name` from auth.go (`Local`'s name modelled from the
spec). -/
def Authenticator.Name : Authenticator → String
  | .SSHAgent => "ssh-agent"
  | .SSHKeyAuth _ => "Personal SSH key"
  | .BasicAuth _ => "Username and Password/Token"
  | .None => "None"
  | .Local => "Local"

/-- `AuthOptions` (maps modelled as association lists). -/
structure AuthOptions where
  Credentials : List (String × Credential)
  Tokens : List (String × String)
  SSHKeys : List (String × SSHKey)
  Local : Bool
deriving Repr

/-- `NewGitOptions` (the cacher field is modelled separately in the
engine world and is irrelevant to the chain). -/
structure NewGitOptions where
  AuthOptions : Option AuthOptions
  NoForcedFetch : Bool
deriving Repr

/-- Token normalization: each per-host token becomes basic auth with
username `modv2`. -/
def tokensToCreds (tokens : List (String × String)) : List (String × Credential) :=
  tokens.map (fun p => (p.1, ⟨"modv2", p.2⟩))

/-- `NewWithOptions`: builds the authenticator chain, mirroring the
imperative appends one by one.  `sshAgentOk` models whether
`NewSSHAgent()` succeeds (an environment probe); `sshKeysOk` models
whether `NewSSHKeyAuth` can read the configured keys. -/
def NewWithOptions (sshAgentOk sshKeysOk : Bool) (options : NewGitOptions) :
    List Authenticator :=
  let methods : List Authenticator := []
  let methods := if sshAgentOk then methods ++ [.SSHAgent] else methods
  let methods :=
    match options.AuthOptions with
    | none => methods
    | some o =>
      let methods :=
        if !o.SSHKeys.isEmpty && sshKeysOk then methods ++ [.SSHKeyAuth o.SSHKeys]
        else methods
      let methods :=
        if !o.Credentials.isEmpty then methods ++ [.BasicAuth o.Credentials]
        else methods
      let methods :=
        if !o.Tokens.isEmpty then methods ++ [.BasicAuth (tokensToCreds o.Tokens)]
        else methods
      methods
  let methods := methods ++ [.None]
  let methods :=
    match options.AuthOptions with
    | some o => if o.Local then methods ++ [.Local] else methods
    | none => methods
  methods

/-- The chain in the canonical spec order: SSH-agent, per-host SSH key,
per-host basic auth, token-as-basic-auth, anonymous, local. -/
def canonicalChain (sshAgentOk sshKeysOk : Bool) (options : NewGitOptions) :
    List Authenticator :=
  (if sshAgentOk then [.SSHAgent] else []) ++
  (match options.AuthOptions with
   | none => []
   | some o =>
     (if !o.SSHKeys.isEmpty && sshKeysOk then [.SSHKeyAuth o.SSHKeys] else []) ++
     (if !o.Credentials.isEmpty then [.BasicAuth o.Credentials] else []) ++
     (if !o.Tokens.isEmpty then [.BasicAuth (tokensToCreds o.Tokens)] else [])) ++
  [.None] ++
  (match options.AuthOptions with
   | some o => if o.Local then [.Local] else []
   | none => [])

/-- Whether local access is allowed by the options. -/
def optLocal (options : NewGitOptions) : Bool :=
  match options.AuthOptions with
  | some o => o.Local
  | none => false

/-- The auth-iteration loop shared by every network operation
(`withAuth0`/`withAuth1` in the Repo operations; `CloneWithOpts`,
`FetchRefSpec` and `FetchCommitWithOpts` use the same loop shape):
attempt each method in chain order until one succeeds, accumulating
one `(name, message)` error entry per failure.  The second component
instruments the loop with the methods actually attempted, in order. -/
def withAuth0 (methods : List Authenticator)
    (f : Authenticator → Except String Unit) :
    Except (List (String × String)) Unit × List Authenticator :=
  match methods with
  | [] => (.error [], [])
  | meth :: rest =>
    match f meth with
    | .ok _ => (.ok (), [meth])
    | .error e =>
      match withAuth0 rest f with
      | (.ok _, tr) => (.ok (), meth :: tr)
      | (.error errs, tr) => (.error ((meth.Name, e) :: errs), meth :: tr)

theorem withAuth0_trace_take (ms : List Authenticator)
    (f : Authenticator → Except String Unit) :
    (withAuth0 ms f).2 = ms.take (withAuth0 ms f).2.length := by
  induction ms with
  | nil => simp [withAuth0]
  | cons meth rest ih =>
    simp only [withAuth0]
    cases hf : f meth with
    | ok u => simp
    | error e =>
      rcases hw : withAuth0 rest f with ⟨res, tr⟩
      rw [hw] at ih
      cases res with
      | ok u => simpa using ih
      | error errs => simpa using ih

theorem withAuth0_exhaustion (ms : List Authenticator)
    (f : Authenticator → Except String Unit) :
    (withAuth0 ms f).1.isOk = true ∨ (withAuth0 ms f).2 = ms := by
  induction ms with
  | nil => right; simp [withAuth0]
  | cons meth rest ih =>
    simp only [withAuth0]
    cases hf : f meth with
    | ok u => left; rfl
    | error e =>
      rcases hw : withAuth0 rest f with ⟨res, tr⟩
      rw [hw] at ih
      cases res with
      | ok u => left; rfl
      | error errs =>
        right
        rcases ih with h | h
        · exact absurd h (by simp [Except.isOk, Except.toBool])
        · simpa using h

/-- C5: the chain built by `NewWithOptions` is exactly the canonical
order — SSH-agent (when available), per-host SSH key, per-host basic
auth, token-as-basic-auth, anonymous, local (last, and only when local
access is allowed) — the anonymous method is always present, the local
method is present iff allowed, and the shared auth-iteration loop
attempts exactly a chain-order segment from the front, trying the whole
chain when every method fails. -/
theorem C5_auth_chain_order_and_iteration (sshAgentOk sshKeysOk : Bool)
    (opts : NewGitOptions) (f : Authenticator → Except String Unit) :
    NewWithOptions sshAgentOk sshKeysOk opts =
      canonicalChain sshAgentOk sshKeysOk opts ∧
    Authenticator.None ∈ NewWithOptions sshAgentOk sshKeysOk opts ∧
    (Authenticator.Local ∈ NewWithOptions sshAgentOk sshKeysOk opts ↔
      optLocal opts = true) ∧
    (withAuth0 (NewWithOptions sshAgentOk sshKeysOk opts) f).2 =
      (NewWithOptions sshAgentOk sshKeysOk opts).take
        (withAuth0 (NewWithOptions sshAgentOk sshKeysOk opts) f).2.length ∧
    ((withAuth0 (NewWithOptions sshAgentOk sshKeysOk opts) f).1.isOk = true ∨
      (withAuth0 (NewWithOptions sshAgentOk sshKeysOk opts) f).2 =
        NewWithOptions sshAgentOk sshKeysOk opts) := by
  have hcanon : NewWithOptions sshAgentOk sshKeysOk opts =
      canonicalChain sshAgentOk sshKeysOk opts := by
    rcases opts with ⟨oa, nf⟩
    cases oa with
    | none => cases sshAgentOk <;> simp [NewWithOptions, canonicalChain]
    | some o =>
      cases sshAgentOk <;> cases sshKeysOk <;>
        cases hS : o.SSHKeys.isEmpty <;> cases hC : o.Credentials.isEmpty <;>
        cases hT : o.Tokens.isEmpty <;> cases hL : o.Local <;>
        simp [NewWithOptions, canonicalChain, hS, hC, hT, hL]
  refine ⟨hcanon, ?_, ?_, withAuth0_trace_take _ _, withAuth0_exhaustion _ _⟩
  · rw [hcanon]
    rcases opts with ⟨oa, nf⟩
    cases oa with
    | none => simp [canonicalChain]
    | some o => cases hL : o.Local <;> simp [canonicalChain]
  · rw [hcanon]
    rcases opts with ⟨oa, nf⟩
    cases oa with
    | none => simp [canonicalChain, optLocal]
    | some o =>
      cases sshAgentOk <;> cases sshKeysOk <;>
        cases hS : o.SSHKeys.isEmpty <;> cases hC : o.Credentials.isEmpty <;>
        cases hT : o.Tokens.isEmpty <;> cases hL : o.Local <;>
        simp [canonicalChain, optLocal, hS, hC, hT, hL, tokensToCreds]

/-! ## Engine world — the go-git repository layer used by `Git.Set`
(src/retriever/git/retriever.go) and the Repo operations
(CloneRepo / InitWithRemote / FetchRef / Fetch / FetchRefOrAll /
Checkout / ResolveHash / Exists / IsClean).

go-git and the filesystem are external collaborators; they are modelled
as a state machine over `GitWorld`: the local repository is a set of
commit objects plus a revision table (including the `"HEAD"` entry), the
worktree is the checked-out commit with a clean flag, and the remote is
a ref table plus an object set.  `ResolveRevision` on a commit hash
yields that hash when the object is present, matching go-git (short
hashes are not modelled; the engine treats them only through the
string-prefix test, which full hashes satisfy trivially). -/

/-- The state of one repository's world as seen by the engine. -/
structure GitWorld where
  present : Bool
  objects : List String
  refs : List (String × String)
  checkedOut : Option String
  clean : Bool
  dirNonEmpty : Bool
  plain : Bool
  remoteRefs : List (String × String)
  remoteObjects : List String
deriving Repr

/-- Insert a string into a set-like list. -/
def insertStr (s : String) (l : List String) : List String :=
  if s ∈ l then l else s :: l

/-- `Repo.ResolveHash` (via go-git `ResolveRevision`): a present commit
hash resolves to itself, otherwise the revision table is consulted. -/
def resolveHash (w : GitWorld) (ref : String) : Option String :=
  if ref ∈ w.objects then some ref else lookupA w.refs ref

/-- `Repo.Exists`. -/
def existsRef (w : GitWorld) (ref : String) : Bool :=
  (resolveHash w ref).isSome

/-- `Repo.FetchRef` (`+<ref>:<ref>`): succeeds when the remote knows the
ref (or has the commit object); the object and the local ref entry are
installed. -/
def fetchRef (w : GitWorld) (ref : String) : Option GitWorld :=
  match lookupA w.remoteRefs ref with
  | some h =>
    some { w with objects := insertStr h w.objects, refs := setA w.refs ref h }
  | none =>
    if ref ∈ w.remoteObjects then
      some { w with objects := insertStr ref w.objects, refs := setA w.refs ref ref }
    else none

/-- `Repo.Fetch` (`+refs/heads/*:refs/remotes/origin/*`): installs every
remote branch ref and its object.  The remote `HEAD` symref is not part
of `refs/heads/*` and a fetch never moves the local `HEAD`, so that
entry is excluded. -/
def fetchAll (w : GitWorld) : GitWorld :=
  let branches := w.remoteRefs.filter (fun p => p.1 != "HEAD")
  { w with
    objects := branches.foldl (fun acc p => insertStr p.2 acc) w.objects
    refs := branches.foldl (fun acc p => setA acc p.1 p.2) w.refs }

/-- `Repo.FetchRefOrAll`: try the direct fetch, fall back to a full
fetch and re-check that the ref now exists.  Returns the error (if any)
together with the post-state. -/
def FetchRefOrAll (w : GitWorld) (ref : String) : Option String × GitWorld :=
  match fetchRef w ref with
  | some w₂ => (none, w₂)
  | none =>
    let w₂ := fetchAll w
    if existsRef w₂ ref then (none, w₂)
    else (some ("error fetching ref or all, ref: " ++ ref ++
      " doesn't exist after fetch"), w₂)

/-- `Git.CloneRepo` with `Tags: none` at the requested depth: a fresh
working copy of the remote default branch, checked out. -/
def CloneRepo (w : GitWorld) : Option String × GitWorld :=
  match lookupA w.remoteRefs "HEAD" with
  | some hd =>
    (none, { w with
      present := true
      objects := [hd]
      refs := [("HEAD", hd)]
      checkedOut := some hd
      clean := true
      dirNonEmpty := true })
  | none => (some "clone failed", w)

/-- `Git.InitWithRemote` followed by `FetchRef("HEAD")` (the
`Checkout=False` initialisation path).  `InitWithRemote` itself is not
under src (modelled from the spec: initialize an empty plain working
copy and attach the origin remote); the HEAD fetch then installs the
default-branch object without checking anything out. -/
def InitWithRemoteFetchHead (w : GitWorld) : Option String × GitWorld :=
  match lookupA w.remoteRefs "HEAD" with
  | some hd =>
    (none, { w with
      present := true
      objects := [hd]
      refs := [("HEAD", hd)]
      checkedOut := none
      clean := true
      dirNonEmpty := false })
  | none => (some "init with remote failed", w)

/-- `Repo.Checkout`: resolve the ref and move the worktree to the
resulting commit; without `Force` local modifications abort the
checkout. -/
def CheckoutOp (w : GitWorld) (ref : String) (force : Bool) :
    Option String × GitWorld :=
  match resolveHash w ref with
  | none => (some ("error resolving revision for reference: " ++ ref), w)
  | some h =>
    if h ∈ w.objects then
      if force || w.clean then
        (none, { w with
          checkedOut := some h
          refs := setA w.refs "HEAD" h
          dirNonEmpty := true })
      else (some "worktree contains unstaged changes", w)
    else (some "object not found", w)

/-- `SetResult`: the commit the repository was set to (identified by its
hash). -/
structure SetResult where
  commitHash : String
deriving DecidableEq, Repr

/-- `resultAt`: look up the commit object at the hash. -/
def resultAt (w : GitWorld) (hash : String) : Except String SetResult :=
  if hash ∈ w.objects then .ok ⟨hash⟩ else .error "object not found"

/-- `OptFetch` from retriever.go. -/
inductive OptFetch where
  | fetchTrue
  | fetchUnknown
  | fetchFalse
deriving DecidableEq, Repr

/-- `OptReset` from retriever.go. -/
inductive OptReset where
  | resetTrue
  | resetOnCheckout
  | resetFalse
deriving DecidableEq, Repr

/-- `OptCheckout` from retriever.go. -/
inductive OptCheckout where
  | checkoutTrue
  | checkoutFalse
deriving DecidableEq, Repr

/-- `opts.Reset != OptResetFalse` — the force flag handed to the final
checkout. -/
def OptReset.forceFlag : OptReset → Bool
  | .resetFalse => false
  | _ => true

/-- `opts.Reset == OptResetTrue`. -/
def OptReset.isTrue : OptReset → Bool
  | .resetTrue => true
  | _ => false

/-- `SetOpts` from retriever.go. -/
structure SetOpts where
  Fetch : OptFetch
  Reset : OptReset
  Checkout : OptCheckout
  Depth : Nat
  Verify : Bool
deriving Repr

/-- The outcome of `Git.Set`: the result, the post-state, and an
instrumentation flag recording whether a checkout (the only operation
that touches the worktree) was performed. -/
structure SetOut where
  res : Except String SetResult
  w : GitWorld
  didCheckout : Bool
deriving Repr

/-- `Git.Set`, repository-absent path (retriever.go lines 232–307). -/
def gitSetAbsent (w : GitWorld) (repo ref : String) (opts : SetOpts) : SetOut :=
  match opts.Fetch with
  | .fetchFalse =>
    ⟨.error ("repository: " ++ repo ++ " doesn't exist and fetch was explicitly false"),
      w, false⟩
  | _ =>
    if opts.Verify then
      ⟨.error ("repository: " ++ repo ++ " was asked to be verified at reference: " ++
        ref ++ " but doesn't exist"), w, false⟩
    else
      match opts.Checkout with
      | .checkoutFalse =>
        match InitWithRemoteFetchHead w with
        | (some e, w₁) =>
          ⟨.error ("error cloning repository to reference: " ++ ref ++ ": " ++ e),
            w₁, false⟩
        | (none, w₁) =>
          let afterFetch : Option String × GitWorld :=
            if existsRef w₁ ref then (none, w₁) else FetchRefOrAll w₁ ref
          match afterFetch with
          | (some e, w₂) =>
            ⟨.error ("error fetching reference: " ++ ref ++ ": " ++ e), w₂, false⟩
          | (none, w₂) =>
            match resolveHash w₂ ref with
            | none =>
              ⟨.error ("error resolving hash for reference: " ++ ref), w₂, false⟩
            | some refHash => ⟨resultAt w₂ refHash, w₂, false⟩
      | .checkoutTrue =>
        match CloneRepo w with
        | (some e, w₁) =>
          ⟨.error ("error cloning repository to reference: " ++ ref ++ ": " ++ e),
            w₁, false⟩
        | (none, w₁) =>
          let afterFetch : Option String × GitWorld :=
            if existsRef w₁ ref then (none, w₁) else FetchRefOrAll w₁ ref
          match afterFetch with
          | (some e, w₂) =>
            ⟨.error ("error fetching reference: " ++ ref ++ ": " ++ e), w₂, true⟩
          | (none, w₂) =>
            match CheckoutOp w₂ ref true with
            | (some e, w₃) =>
              ⟨.error ("error checking out reference: " ++ ref ++ ": " ++ e), w₃, true⟩
            | (none, w₃) =>
              match resolveHash w₃ "HEAD" with
              | none => ⟨.error "error resolving head hash", w₃, true⟩
              | some headHash => ⟨resultAt w₃ headHash, w₃, true⟩

/-- `Git.Set`, final checkout step of the repository-present path
(retriever.go lines 413–427): skip when checking out is not requested,
else check out the target with force unless reset is explicitly off. -/
def gitSetCheckoutPhase (w₁ : GitWorld) (ref refHash : String)
    (opts : SetOpts) : SetOut :=
  match opts.Checkout with
  | .checkoutFalse => ⟨resultAt w₁ refHash, w₁, false⟩
  | .checkoutTrue =>
    match CheckoutOp w₁ ref opts.Reset.forceFlag with
    | (some e, w₂) =>
      ⟨.error ("error checking out reference: " ++ ref ++ ": " ++ e), w₂, true⟩
    | (none, w₂) => ⟨resultAt w₂ refHash, w₂, true⟩

/-- `Git.Set`, tail of the repository-present path (retriever.go lines
357–427): refresh the target hash, optionally verify, take the
already-at-target fast path, then either skip or perform the checkout. -/
def gitSetPresentTail (w₁ : GitWorld) (repo ref headHash : String)
    (opts : SetOpts) : SetOut :=
  match resolveHash w₁ ref with
  | none => ⟨.error ("error resolving hash for reference: " ++ ref), w₁, false⟩
  | some refHash =>
    if opts.Verify then
      if headHash ≠ refHash then
        ⟨.error ("repository: " ++ repo ++ " was asked to be verified at reference: " ++
          ref ++ " but was at: " ++ headHash), w₁, false⟩
      else if opts.Reset.isTrue = false then ⟨resultAt w₁ headHash, w₁, false⟩
      else if w₁.clean then ⟨resultAt w₁ headHash, w₁, false⟩
      else
        ⟨.error ("repository: " ++ repo ++ " verified to be at reference: " ++ ref ++
          " but requested reset would modify contents"), w₁, false⟩
    else
      if headHash == refHash && opts.Reset.isTrue = false then
        if w₁.plain = false then ⟨.error "repository must be a plain repository", w₁, false⟩
        else if w₁.dirNonEmpty then ⟨resultAt w₁ headHash, w₁, false⟩
        else gitSetCheckoutPhase w₁ ref refHash opts
      else gitSetCheckoutPhase w₁ ref refHash opts

/-- `Git.Set`, repository-present path (retriever.go lines 309–427). -/
def gitSetPresent (w : GitWorld) (repo ref : String) (opts : SetOpts) : SetOut :=
  match resolveHash w "HEAD" with
  | none => ⟨.error "error resolving head hash", w, false⟩
  | some headHash =>
    let exists₀ := existsRef w ref
    let refHash₀ := (resolveHash w ref).getD ""
    let fetch : Bool :=
      match opts.Fetch with
      | .fetchFalse => false
      | .fetchTrue => !(ref.isPrefixOf refHash₀)
      | .fetchUnknown => !exists₀
    let fetched : Option String × GitWorld :=
      if fetch then FetchRefOrAll w ref else (none, w)
    match fetched with
    | (some e, w₁) =>
      ⟨.error ("error fetching reference: " ++ ref ++ " in repo: " ++ repo ++ ": " ++ e),
        w₁, false⟩
    | (none, w₁) => gitSetPresentTail w₁ repo ref headHash opts

/-- `Git.Set` (retriever.go lines 207–428); the once-slot acquisition
and context checks are concurrency control outside this serialized
body. -/
def GitSet (w : GitWorld) (repo ref : String) (opts : SetOpts) : SetOut :=
  if w.present then gitSetPresent w repo ref opts else gitSetAbsent w repo ref opts

/-! ## Session — src/retriever/git/git.go (`sessionImpl`) -/

/-- `SessionOptFetch`. -/
inductive SessionOptFetch where
  | fetchFirst
  | fetchUnknown
  | fetchTrue
  | fetchFalse
deriving DecidableEq, Repr

/-- `SessionOptReset`. -/
inductive SessionOptReset where
  | resetFirst
  | resetOnCheckout
  | resetTrue
  | resetFalse
deriving DecidableEq, Repr

/-- The session's `map[string]string` of `repo@ref` to recorded hash. -/
structure SessionState where
  hashes : List (String × String)
deriving Repr

/-- `strings.TrimPrefix`. -/
def trimPre (p s : String) : String :=
  if p.isPrefixOf s then s.drop p.length else s

/-- Session hash substitution: replace the ref by the recorded hash when
one is known for the key. -/
def conformRef (ss : SessionState) (key ref₁ : String) : String :=
  match lookupA ss.hashes key with
  | some h => if ref₁ ≠ h then h else ref₁
  | none => ref₁

/-- The fetch behaviour handed down by `sessionImpl.set`. -/
def sessionFetchOpt (hasSessionRefHash : Bool) : SessionOptFetch → OptFetch
  | .fetchFirst => if hasSessionRefHash then .fetchFalse else .fetchTrue
  | .fetchUnknown => .fetchUnknown
  | .fetchFalse => .fetchFalse
  | .fetchTrue => .fetchTrue

/-- The reset behaviour handed down by `sessionImpl.set`. -/
def sessionResetOpt (first : Bool) : SessionOptReset → OptReset
  | .resetFirst => if first then .resetTrue else .resetOnCheckout
  | .resetOnCheckout => .resetOnCheckout
  | .resetFalse => .resetFalse
  | .resetTrue => .resetTrue

/-- The outcome of `sessionImpl.set`: result, engine world, session
state, the reference actually delegated to `Git.Set` (instrumentation),
and the checkout flag. -/
structure SessionOut where
  res : Except String SetResult
  w : GitWorld
  ss : SessionState
  delegatedRef : String
  didCheckout : Bool
deriving Repr

/-- `sessionImpl.set` (git.go lines 550–634): the key uses the caller's
ref, a legacy `tags/` lead is stripped, the recorded hash (if any)
replaces the ref, the fetch/reset enums are lowered, `Git.Set` is
invoked, and on success the resulting commit hash is recorded. -/
def sessionSet (w : GitWorld) (ss : SessionState) (repo ref : String)
    (optFetch : SessionOptFetch) (optReset : SessionOptReset)
    (optCheckout : OptCheckout) (optDepth : Nat) (optVerify : Bool) : SessionOut :=
  let key := repo ++ "@" ++ ref
  let ref₁ := trimPre "tags/" ref
  let ref₂ := conformRef ss key ref₁
  let fetch := sessionFetchOpt (lookupA ss.hashes key).isSome optFetch
  let reset := sessionResetOpt ss.hashes.isEmpty optReset
  let out := GitSet w repo ref₂ ⟨fetch, reset, optCheckout, optDepth, optVerify⟩
  match out.res with
  | .error e => ⟨.error e, out.w, ss, ref₂, out.didCheckout⟩
  | .ok result =>
    ⟨.ok result, out.w, ⟨setA ss.hashes key result.commitHash⟩, ref₂,
      out.didCheckout⟩

/-- `SessionSetOpts` (Verbose only toggles logging and is omitted). -/
structure SessionSetOpts where
  Fetch : SessionOptFetch
  Reset : SessionOptReset
  Depth : Nat
  Verify : Bool
deriving Repr

/-- `SessionResolveOpts`. -/
structure SessionResolveOpts where
  Fetch : SessionOptFetch
  Depth : Nat
deriving Repr

/-- `sessionImpl.Set`. -/
def SessionSet (w : GitWorld) (ss : SessionState) (repo ref : String)
    (opts : SessionSetOpts) : SessionOut :=
  sessionSet w ss repo ref opts.Fetch opts.Reset .checkoutTrue opts.Depth opts.Verify

/-- `sessionImpl.Resolve`: delegate to the internal set with
`Reset=False`, `Checkout=False`, `Verify=false` and return the commit. -/
def SessionResolve (w : GitWorld) (ss : SessionState) (repo ref : String)
    (opts : SessionResolveOpts) : Except String SetResult × GitWorld × SessionState :=
  let out := sessionSet w ss repo ref opts.Fetch .resetFalse .checkoutFalse
    opts.Depth false
  (out.res, out.w, out.ss)

theorem fetchRef_fields (w : GitWorld) (ref : String) (w₂ : GitWorld)
    (h : fetchRef w ref = some w₂) :
    w₂.present = w.present ∧ w₂.checkedOut = w.checkedOut ∧ w₂.clean = w.clean ∧
    w₂.dirNonEmpty = w.dirNonEmpty ∧ w₂.plain = w.plain := by
  unfold fetchRef at h
  split at h
  · cases h; exact ⟨rfl, rfl, rfl, rfl, rfl⟩
  · split at h
    · cases h; exact ⟨rfl, rfl, rfl, rfl, rfl⟩
    · cases h

theorem fetchAll_fields (w : GitWorld) :
    (fetchAll w).present = w.present ∧ (fetchAll w).checkedOut = w.checkedOut ∧
    (fetchAll w).clean = w.clean ∧ (fetchAll w).dirNonEmpty = w.dirNonEmpty ∧
    (fetchAll w).plain = w.plain :=
  ⟨rfl, rfl, rfl, rfl, rfl⟩

theorem fetchRefOrAll_fields (w : GitWorld) (ref : String) :
    (FetchRefOrAll w ref).2.present = w.present ∧
    (FetchRefOrAll w ref).2.checkedOut = w.checkedOut ∧
    (FetchRefOrAll w ref).2.clean = w.clean ∧
    (FetchRefOrAll w ref).2.dirNonEmpty = w.dirNonEmpty ∧
    (FetchRefOrAll w ref).2.plain = w.plain := by
  unfold FetchRefOrAll
  split
  case h_1 w₂ heq => exact fetchRef_fields w ref w₂ heq
  case h_2 heq =>
    dsimp only
    split <;> exact fetchAll_fields w

theorem gitSetPresentTail_checkoutFalse (w₁ : GitWorld) (repo ref headHash : String)
    (opts : SetOpts) (h : opts.Checkout = .checkoutFalse) :
    (gitSetPresentTail w₁ repo ref headHash opts).didCheckout = false ∧
    (gitSetPresentTail w₁ repo ref headHash opts).w = w₁ := by
  have hphase : ∀ refHash, gitSetCheckoutPhase w₁ ref refHash opts =
      ⟨resultAt w₁ refHash, w₁, false⟩ := by
    intro refHash
    unfold gitSetCheckoutPhase
    rw [h]
  unfold gitSetPresentTail
  split
  · exact ⟨rfl, rfl⟩
  · split
    · split
      · exact ⟨rfl, rfl⟩
      · split
        · exact ⟨rfl, rfl⟩
        · split
          · exact ⟨rfl, rfl⟩
          · exact ⟨rfl, rfl⟩
    · split
      · split
        · exact ⟨rfl, rfl⟩
        · split
          · exact ⟨rfl, rfl⟩
          · rw [hphase]; exact ⟨rfl, rfl⟩
      · rw [hphase]; exact ⟨rfl, rfl⟩

theorem gitSet_checkoutFalse_no_checkout (w : GitWorld) (repo ref : String)
    (opts : SetOpts) (h : opts.Checkout = .checkoutFalse) :
    (GitSet w repo ref opts).didCheckout = false ∧
    (w.present = true →
      (GitSet w repo ref opts).w.checkedOut = w.checkedOut ∧
      (GitSet w repo ref opts).w.clean = w.clean ∧
      (GitSet w repo ref opts).w.dirNonEmpty = w.dirNonEmpty) := by
  unfold GitSet
  cases hp : w.present with
  | false =>
    simp only [Bool.false_eq_true, if_false]
    refine ⟨?_, ?_⟩
    · unfold gitSetAbsent
      split
      · rfl
      · split
        · rfl
        · rw [h]
          dsimp only
          split
          · rfl
          · split
            · rfl
            · split
              · rfl
              · rfl
    · intro hc
      exact hc.elim
  | true =>
    simp only [if_true]
    have key : (gitSetPresent w repo ref opts).didCheckout = false ∧
        ((gitSetPresent w repo ref opts).w.checkedOut = w.checkedOut ∧
         (gitSetPresent w repo ref opts).w.clean = w.clean ∧
         (gitSetPresent w repo ref opts).w.dirNonEmpty = w.dirNonEmpty) := by
      unfold gitSetPresent
      split
      · exact ⟨rfl, rfl, rfl, rfl⟩
      case h_2 headHash heq =>
        dsimp only
        split
        case h_1 e w₁ hfe =>
          split at hfe
          · have hfields := fetchRefOrAll_fields w ref
            rw [hfe] at hfields
            exact ⟨rfl, hfields.2.1, hfields.2.2.1, hfields.2.2.2.1⟩
          · simp at hfe
        case h_2 w₁ hfe =>
          have htail := gitSetPresentTail_checkoutFalse w₁ repo ref headHash opts h
          have hw₁ : w₁.checkedOut = w.checkedOut ∧ w₁.clean = w.clean ∧
              w₁.dirNonEmpty = w.dirNonEmpty := by
            split at hfe
            · have hfields := fetchRefOrAll_fields w ref
              rw [hfe] at hfields
              exact ⟨hfields.2.1, hfields.2.2.1, hfields.2.2.2.1⟩
            · have hw : w = w₁ := by simpa using hfe
              subst hw
              exact ⟨rfl, rfl, rfl⟩
          refine ⟨htail.1, ?_⟩
          rw [htail.2]
          exact hw₁
    exact ⟨key.1, fun _ => key.2⟩

/-- C8: `Session.Resolve` is the session's internal set with the same
fetch option and depth but `Checkout=False`, `Reset=False`,
`Verify=false`, returning the resolved commit; in particular that call
never performs a checkout, and on an already-initialised repository the
worktree (checked-out commit, clean flag, directory contents) is left
untouched. -/
theorem C8_resolve_equals_set_without_checkout (w : GitWorld) (ss : SessionState)
    (repo ref : String) (opts : SessionResolveOpts) :
    SessionResolve w ss repo ref opts =
      ((sessionSet w ss repo ref opts.Fetch .resetFalse .checkoutFalse
          opts.Depth false).res,
       (sessionSet w ss repo ref opts.Fetch .resetFalse .checkoutFalse
          opts.Depth false).w,
       (sessionSet w ss repo ref opts.Fetch .resetFalse .checkoutFalse
          opts.Depth false).ss) ∧
    (sessionSet w ss repo ref opts.Fetch .resetFalse .checkoutFalse
      opts.Depth false).didCheckout = false ∧
    (w.present = true →
      (sessionSet w ss repo ref opts.Fetch .resetFalse .checkoutFalse
        opts.Depth false).w.checkedOut = w.checkedOut ∧
      (sessionSet w ss repo ref opts.Fetch .resetFalse .checkoutFalse
        opts.Depth false).w.clean = w.clean ∧
      (sessionSet w ss repo ref opts.Fetch .resetFalse .checkoutFalse
        opts.Depth false).w.dirNonEmpty = w.dirNonEmpty) := by
  have hdeleg :
      (sessionSet w ss repo ref opts.Fetch .resetFalse .checkoutFalse
        opts.Depth false).w =
      (GitSet w repo
        (conformRef ss (repo ++ "@" ++ ref) (trimPre "tags/" ref))
        ⟨sessionFetchOpt (lookupA ss.hashes (repo ++ "@" ++ ref)).isSome opts.Fetch,
         sessionResetOpt ss.hashes.isEmpty .resetFalse, .checkoutFalse,
         opts.Depth, false⟩).w ∧
      (sessionSet w ss repo ref opts.Fetch .resetFalse .checkoutFalse
        opts.Depth false).didCheckout =
      (GitSet w repo
        (conformRef ss (repo ++ "@" ++ ref) (trimPre "tags/" ref))
        ⟨sessionFetchOpt (lookupA ss.hashes (repo ++ "@" ++ ref)).isSome opts.Fetch,
         sessionResetOpt ss.hashes.isEmpty .resetFalse, .checkoutFalse,
         opts.Depth, false⟩).didCheckout := by
    unfold sessionSet
    dsimp only
    split <;> exact ⟨rfl, rfl⟩
  have hengine := gitSet_checkoutFalse_no_checkout w repo
    (conformRef ss (repo ++ "@" ++ ref) (trimPre "tags/" ref))
    ⟨sessionFetchOpt (lookupA ss.hashes (repo ++ "@" ++ ref)).isSome opts.Fetch,
     sessionResetOpt ss.hashes.isEmpty .resetFalse, .checkoutFalse,
     opts.Depth, false⟩ rfl
  refine ⟨rfl, ?_, ?_⟩
  · rw [hdeleg.2]; exact hengine.1
  · intro hp
    rw [hdeleg.1]
    exact hengine.2 hp

/-! ## Well-formed worlds.  A git remote (and any local repository
derived from it) stores 40-hex commit hashes in its refs, and a ref
whose *name* is itself a commit hash can only denote that commit (this
is how `+<hash>:<hash>` fetches land).  These facts let us prove that
resolving a full hash never yields a different commit. -/

/-- Refs map names to 40-hex hashes; hash-named refs are self-maps. -/
def RefsWF (l : List (String × String)) : Prop :=
  ∀ p ∈ l, (isHash p.1 = true → p.2 = p.1) ∧ isHash p.2 = true

/-- Object databases hold 40-hex commit hashes. -/
def ObjsWF (l : List String) : Prop := ∀ o ∈ l, isHash o = true

/-- Local and remote sides of a world are well formed. -/
def WFWorld (w : GitWorld) : Prop :=
  RefsWF w.refs ∧ ObjsWF w.objects ∧ RefsWF w.remoteRefs ∧ ObjsWF w.remoteObjects

instance : DecidablePred RefsWF := fun l =>
  List.decidableBAll _ l

instance : DecidablePred ObjsWF := fun l =>
  List.decidableBAll _ l

instance (w : GitWorld) : Decidable (WFWorld w) :=
  inferInstanceAs (Decidable (_ ∧ _ ∧ _ ∧ _))

theorem lookupA_mem {α : Type} (l : List (String × α)) (k : String) (v : α)
    (h : lookupA l k = some v) : (k, v) ∈ l := by
  induction l with
  | nil => simp [lookupA] at h
  | cons p rest ih =>
    obtain ⟨k₁, v₁⟩ := p
    simp only [lookupA] at h
    split at h
    · rename_i hk
      have hk₁ : k₁ = k := by simpa using hk
      subst hk₁
      injection h with h
      subst h
      exact List.mem_cons_self _ _
    · exact List.mem_cons_of_mem _ (ih h)

theorem mem_setA {α : Type} (l : List (String × α)) (k : String) (v : α)
    (p : String × α) (h : p ∈ setA l k v) : p = (k, v) ∨ p ∈ l := by
  induction l with
  | nil => simpa [setA] using h
  | cons q rest ih =>
    obtain ⟨k₁, v₁⟩ := q
    simp only [setA] at h
    split at h
    · rcases List.mem_cons.mp h with h₁ | h₁
      · exact Or.inl h₁
      · exact Or.inr (List.mem_cons_of_mem _ h₁)
    · rcases List.mem_cons.mp h with h₁ | h₁
      · exact Or.inr (by simp [h₁])
      · rcases ih h₁ with h₂ | h₂
        · exact Or.inl h₂
        · exact Or.inr (List.mem_cons_of_mem _ h₂)

theorem mem_insertStr (s : String) (l : List String) (x : String)
    (h : x ∈ insertStr s l) : x = s ∨ x ∈ l := by
  unfold insertStr at h
  split at h
  · exact Or.inr h
  · rcases List.mem_cons.mp h with h₁ | h₁
    · exact Or.inl h₁
    · exact Or.inr h₁

theorem RefsWF_setA (l : List (String × String)) (k v : String)
    (hl : RefsWF l) (hk : isHash k = true → v = k) (hv : isHash v = true) :
    RefsWF (setA l k v) := by
  intro p hp
  rcases mem_setA l k v p hp with h | h
  · subst h; exact ⟨hk, hv⟩
  · exact hl p h

theorem ObjsWF_insertStr (l : List String) (s : String)
    (hl : ObjsWF l) (hs : isHash s = true) : ObjsWF (insertStr s l) := by
  intro o ho
  rcases mem_insertStr s l o ho with h | h
  · subst h; exact hs
  · exact hl o h

theorem RefsWF_foldl_setA (rem : List (String × String))
    (acc : List (String × String)) (hacc : RefsWF acc) (hrem : RefsWF rem) :
    RefsWF (rem.foldl (fun a p => setA a p.1 p.2) acc) := by
  induction rem generalizing acc with
  | nil => simpa using hacc
  | cons p rest ih =>
    have hp := hrem p (by simp)
    have hrest : RefsWF rest := fun q hq => hrem q (by simp [hq])
    simp only [List.foldl_cons]
    exact ih (setA acc p.1 p.2) (RefsWF_setA acc p.1 p.2 hacc hp.1 hp.2) hrest

theorem ObjsWF_foldl_insertStr (rem : List (String × String)) (acc : List String)
    (hacc : ObjsWF acc) (hrem : ∀ p ∈ rem, isHash p.2 = true) :
    ObjsWF (rem.foldl (fun a p => insertStr p.2 a) acc) := by
  induction rem generalizing acc with
  | nil => simpa using hacc
  | cons p rest ih =>
    have hp := hrem p (by simp)
    have hrest : ∀ q ∈ rest, isHash q.2 = true := fun q hq => hrem q (by simp [hq])
    simp only [List.foldl_cons]
    exact ih (insertStr p.2 acc) (ObjsWF_insertStr acc p.2 hacc hp) hrest

theorem lookupA_foldl_setA_other (rem : List (String × String))
    (acc : List (String × String)) (k : String) (hrem : ∀ p ∈ rem, p.1 ≠ k) :
    lookupA (rem.foldl (fun a p => setA a p.1 p.2) acc) k = lookupA acc k := by
  induction rem generalizing acc with
  | nil => simp
  | cons p rest ih =>
    have hp : p.1 ≠ k := hrem p (by simp)
    have hrest : ∀ q ∈ rest, q.1 ≠ k := fun q hq => hrem q (by simp [hq])
    simp only [List.foldl_cons]
    rw [ih (setA acc p.1 p.2) hrest]
    exact lookupA_setA_other acc p.1 k p.2 (fun hh => hp hh.symm)

theorem resolveHash_self (w : GitWorld) (hWF : WFWorld w) (s v : String)
    (hs : isHash s = true) (h : resolveHash w s = some v) : v = s := by
  unfold resolveHash at h
  split at h
  · injection h with h; exact h.symm
  · exact (hWF.1 _ (lookupA_mem _ _ _ h)).1 hs

theorem resolveHash_isHash (w : GitWorld) (hWF : WFWorld w) (s v : String)
    (h : resolveHash w s = some v) : isHash v = true := by
  unfold resolveHash at h
  split at h
  · rename_i hin
    injection h with h
    subst h
    exact hWF.2.1 _ hin
  · exact (hWF.1 _ (lookupA_mem _ _ _ h)).2

theorem resultAt_ok (w : GitWorld) (hash : String) (res : SetResult)
    (h : resultAt w hash = .ok res) : res.commitHash = hash := by
  unfold resultAt at h
  split at h
  · injection h with h; subst h; rfl
  · cases h

theorem head_notin_objects (l : List String) (hl : ObjsWF l) : "HEAD" ∉ l :=
  fun hmem => absurd (hl _ hmem) (by decide)

theorem resolveHash_head_eq_lookup (w : GitWorld) (hobjs : ObjsWF w.objects) :
    resolveHash w "HEAD" = lookupA w.refs "HEAD" := by
  unfold resolveHash
  rw [if_neg (head_notin_objects _ hobjs)]

theorem fetchRef_wf (w w₂ : GitWorld) (ref : String) (hWF : WFWorld w)
    (h : fetchRef w ref = some w₂) : WFWorld w₂ := by
  unfold fetchRef at h
  split at h
  case h_1 v hl =>
    injection h with h
    subst h
    have hv := hWF.2.2.1 _ (lookupA_mem _ _ _ hl)
    exact ⟨RefsWF_setA _ _ _ hWF.1 hv.1 hv.2,
      ObjsWF_insertStr _ _ hWF.2.1 hv.2, hWF.2.2.1, hWF.2.2.2⟩
  case h_2 hl =>
    split at h
    · injection h with h
      subst h
      rename_i hin
      have hrf : isHash ref = true := hWF.2.2.2 _ hin
      exact ⟨RefsWF_setA _ _ _ hWF.1 (fun _ => rfl) hrf,
        ObjsWF_insertStr _ _ hWF.2.1 hrf, hWF.2.2.1, hWF.2.2.2⟩
    · cases h

theorem fetchAll_wf (w : GitWorld) (hWF : WFWorld w) : WFWorld (fetchAll w) := by
  have hbr : RefsWF (w.remoteRefs.filter (fun p => p.1 != "HEAD")) :=
    fun p hp => hWF.2.2.1 p (List.mem_of_mem_filter hp)
  exact ⟨RefsWF_foldl_setA _ _ hWF.1 hbr,
    ObjsWF_foldl_insertStr _ _ hWF.2.1 (fun p hp => (hbr p hp).2),
    hWF.2.2.1, hWF.2.2.2⟩

theorem fetchRefOrAll_wf (w : GitWorld) (ref : String) (hWF : WFWorld w) :
    WFWorld (FetchRefOrAll w ref).2 := by
  unfold FetchRefOrAll
  split
  case h_1 w₂ heq => exact fetchRef_wf w w₂ ref hWF heq
  case h_2 heq =>
    dsimp only
    split <;> exact fetchAll_wf w hWF

theorem fetchRef_head (w w₂ : GitWorld) (ref : String) (hWF : WFWorld w)
    (href : ref ≠ "HEAD") (h : fetchRef w ref = some w₂) :
    resolveHash w₂ "HEAD" = resolveHash w "HEAD" := by
  have hWF₂ := fetchRef_wf w w₂ ref hWF h
  rw [resolveHash_head_eq_lookup w hWF.2.1, resolveHash_head_eq_lookup w₂ hWF₂.2.1]
  unfold fetchRef at h
  split at h
  · injection h with h
    subst h
    exact lookupA_setA_other _ _ _ _ (fun hh => href hh.symm)
  · split at h
    · injection h with h
      subst h
      exact lookupA_setA_other _ _ _ _ (fun hh => href hh.symm)
    · cases h

theorem fetchAll_head (w : GitWorld) (hWF : WFWorld w) :
    resolveHash (fetchAll w) "HEAD" = resolveHash w "HEAD" := by
  have hWF₂ := fetchAll_wf w hWF
  rw [resolveHash_head_eq_lookup w hWF.2.1, resolveHash_head_eq_lookup _ hWF₂.2.1]
  exact lookupA_foldl_setA_other _ _ _ (fun p hp => by
    have hb := List.of_mem_filter hp
    simpa using hb)

theorem fetchRefOrAll_head (w : GitWorld) (ref : String) (hWF : WFWorld w)
    (href : ref ≠ "HEAD") :
    resolveHash (FetchRefOrAll w ref).2 "HEAD" = resolveHash w "HEAD" := by
  unfold FetchRefOrAll
  split
  case h_1 w₂ heq => exact fetchRef_head w w₂ ref hWF href heq
  case h_2 heq =>
    dsimp only
    split <;> exact fetchAll_head w hWF

theorem cloneRepo_ok (w w₁ : GitWorld) (hWF : WFWorld w)
    (h : CloneRepo w = (none, w₁)) : WFWorld w₁ := by
  unfold CloneRepo at h
  split at h
  case h_1 hd hl =>
    injection h with h₁ h₂
    subst h₂
    have hv := hWF.2.2.1 _ (lookupA_mem _ _ _ hl)
    refine ⟨?_, ?_, hWF.2.2.1, hWF.2.2.2⟩
    · intro p hp
      have hp₁ : p = ("HEAD", hd) := by simpa using hp
      subst hp₁
      have hH : isHash "HEAD" = false := by decide
      exact ⟨fun hh => absurd hh (by simp [hH]), hv.2⟩
    · intro o ho
      have ho₁ : o = hd := by simpa using ho
      subst ho₁
      exact hv.2
  case h_2 hl =>
    injection h with h₁ h₂
    exact Option.noConfusion h₁

theorem initWithRemote_ok (w w₁ : GitWorld) (hWF : WFWorld w)
    (h : InitWithRemoteFetchHead w = (none, w₁)) : WFWorld w₁ := by
  unfold InitWithRemoteFetchHead at h
  split at h
  case h_1 hd hl =>
    injection h with h₁ h₂
    subst h₂
    have hv := hWF.2.2.1 _ (lookupA_mem _ _ _ hl)
    refine ⟨?_, ?_, hWF.2.2.1, hWF.2.2.2⟩
    · intro p hp
      have hp₁ : p = ("HEAD", hd) := by simpa using hp
      subst hp₁
      have hH : isHash "HEAD" = false := by decide
      exact ⟨fun hh => absurd hh (by simp [hH]), hv.2⟩
    · intro o ho
      have ho₁ : o = hd := by simpa using ho
      subst ho₁
      exact hv.2
  case h_2 hl =>
    injection h with h₁ h₂
    exact Option.noConfusion h₁

theorem checkoutOp_ok (w : GitWorld) (ref : String) (force : Bool) (w₂ : GitWorld)
    (hWF : WFWorld w) (h : CheckoutOp w ref force = (none, w₂)) :
    WFWorld w₂ ∧ w₂.objects = w.objects ∧
    ∃ hh, resolveHash w ref = some hh ∧ w₂.refs = setA w.refs "HEAD" hh := by
  unfold CheckoutOp at h
  split at h
  case h_1 heq =>
    injection h with h₁ h₂
    exact Option.noConfusion h₁
  case h_2 hh heq =>
    split at h
    · split at h
      · injection h with h₁ h₂
        subst h₂
        have hvh : isHash hh = true := resolveHash_isHash w hWF ref hh heq
        exact ⟨⟨RefsWF_setA _ _ _ hWF.1 (fun hx => absurd hx (by decide)) hvh,
          hWF.2.1, hWF.2.2.1, hWF.2.2.2⟩, rfl, hh, heq, rfl⟩
      · injection h with h₁ h₂
        exact Option.noConfusion h₁
    · injection h with h₁ h₂
      exact Option.noConfusion h₁

theorem gitSetCheckoutPhase_contract (w₁ : GitWorld) (h : String) (opts : SetOpts)
    (hWF : WFWorld w₁) (hr : resolveHash w₁ h = some h) :
    ∀ out, gitSetCheckoutPhase w₁ h h opts = out →
    ∀ res, out.res = .ok res →
      res.commitHash = h ∧
      (opts.Checkout = .checkoutTrue → resolveHash out.w "HEAD" = some h) := by
  intro out hout res hres
  unfold gitSetCheckoutPhase at hout
  split at hout
  case h_1 heqc =>
    subst hout
    refine ⟨resultAt_ok _ _ _ hres, fun hct => ?_⟩
    rw [hct] at heqc
    cases heqc
  case h_2 heqc =>
    split at hout
    case h_1 e w₂ hco =>
      subst hout
      exact absurd hres (by simp)
    case h_2 w₂ hco =>
      subst hout
      obtain ⟨hWF₂, hobj, hh₂, hres₂, hrefs₂⟩ :=
        checkoutOp_ok w₁ h opts.Reset.forceFlag w₂ hWF hco
      refine ⟨resultAt_ok _ _ _ hres, fun _ => ?_⟩
      have hinj : hh₂ = h := by
        rw [hr] at hres₂
        injection hres₂ with hres₂
        exact hres₂.symm
      subst hinj
      rw [resolveHash_head_eq_lookup w₂ hWF₂.2.1, hrefs₂]
      exact lookupA_setA_self _ _ _

theorem gitSetPresentTail_hash_contract (w₁ : GitWorld) (repo h headHash : String)
    (opts : SetOpts) (hWF : WFWorld w₁) (hh : isHash h = true)
    (hhead : resolveHash w₁ "HEAD" = some headHash) :
    ∀ out, gitSetPresentTail w₁ repo h headHash opts = out →
    ∀ res, out.res = .ok res →
      res.commitHash = h ∧
      (opts.Checkout = .checkoutTrue → resolveHash out.w "HEAD" = some h) := by
  intro out hout res hres
  unfold gitSetPresentTail at hout
  split at hout
  case h_1 hrn =>
    subst hout
    exact absurd hres (by simp)
  case h_2 refHash hr =>
    have hrh : refHash = h := resolveHash_self w₁ hWF h refHash hh hr
    rw [hrh] at hout hr
    split at hout
    · split at hout
      · subst hout
        exact absurd hres (by simp)
      · rename_i hne
        have hhd : headHash = h := not_not.mp hne
        rw [hhd] at hout hhead
        split at hout
        · subst hout
          exact ⟨resultAt_ok _ _ _ hres, fun _ => hhead⟩
        · split at hout
          · subst hout
            exact ⟨resultAt_ok _ _ _ hres, fun _ => hhead⟩
          · subst hout
            exact absurd hres (by simp)
    · split at hout
      case isTrue hfast =>
        split at hout
        · subst hout
          exact absurd hres (by simp)
        · split at hout
          · subst hout
            have hhd : headHash = h := by
              have hb := (Bool.and_eq_true _ _).mp hfast
              exact beq_iff_eq.mp hb.1
            refine ⟨(resultAt_ok _ _ _ hres).trans hhd, fun _ => ?_⟩
            rw [hhd] at hhead
            exact hhead
          · exact gitSetCheckoutPhase_contract w₁ h opts hWF hr out hout res hres
      case isFalse hfast =>
        exact gitSetCheckoutPhase_contract w₁ h opts hWF hr out hout res hres

theorem gitSetPresent_hash_contract (w : GitWorld) (repo h : String) (opts : SetOpts)
    (hWF : WFWorld w) (hh : isHash h = true) :
    ∀ out, gitSetPresent w repo h opts = out →
    ∀ res, out.res = .ok res →
      res.commitHash = h ∧
      (opts.Checkout = .checkoutTrue → resolveHash out.w "HEAD" = some h) := by
  intro out hout res hres
  have hne : h ≠ "HEAD" := by
    intro heq
    rw [heq] at hh
    exact absurd hh (by decide)
  unfold gitSetPresent at hout
  split at hout
  case h_1 hrn =>
    subst hout
    exact absurd hres (by simp)
  case h_2 headHash hhead₀ =>
    dsimp only at hout
    split at hout
    case h_1 e w₁ hfe =>
      subst hout
      exact absurd hres (by simp)
    case h_2 w₁ hfe =>
      split at hfe
      · have hWF₁ : WFWorld w₁ := by
          have hx := fetchRefOrAll_wf w h hWF
          rw [hfe] at hx
          exact hx
        have hhead₁ : resolveHash w₁ "HEAD" = some headHash := by
          have hx := fetchRefOrAll_head w h hWF hne
          rw [hfe] at hx
          exact hx.trans hhead₀
        exact gitSetPresentTail_hash_contract w₁ repo h headHash opts hWF₁ hh
          hhead₁ out hout res hres
      · have hww : w = w₁ := by simpa using hfe
        subst hww
        exact gitSetPresentTail_hash_contract w repo h headHash opts hWF hh
          hhead₀ out hout res hres

theorem gitSetAbsent_hash_contract (w : GitWorld) (repo h : String) (opts : SetOpts)
    (hWF : WFWorld w) (hh : isHash h = true) :
    ∀ out, gitSetAbsent w repo h opts = out →
    ∀ res, out.res = .ok res →
      res.commitHash = h ∧
      (opts.Checkout = .checkoutTrue → resolveHash out.w "HEAD" = some h) := by
  intro out hout res hres
  unfold gitSetAbsent at hout
  split at hout
  · subst hout
    exact absurd hres (by simp)
  · split at hout
    · subst hout
      exact absurd hres (by simp)
    · split at hout
      case h_1 heqc =>
        split at hout
        case h_1 e w₁ hinit =>
          subst hout
          exact absurd hres (by simp)
        case h_2 w₁ hinit =>
          dsimp only at hout
          have hWF₁ := initWithRemote_ok w w₁ hWF hinit
          split at hout
          case h_1 e w₂ haf =>
            subst hout
            exact absurd hres (by simp)
          case h_2 w₂ haf =>
            have hWF₂ : WFWorld w₂ := by
              split at haf
              · have hx : w₁ = w₂ := by simpa using haf
                subst hx
                exact hWF₁
              · have hx := fetchRefOrAll_wf w₁ h hWF₁
                rw [haf] at hx
                exact hx
            split at hout
            case h_1 hrn =>
              subst hout
              exact absurd hres (by simp)
            case h_2 refHash hr =>
              subst hout
              have hrh : refHash = h := resolveHash_self w₂ hWF₂ h refHash hh hr
              rw [hrh] at hres
              refine ⟨resultAt_ok _ _ _ hres, fun hct => ?_⟩
              rw [hct] at heqc
              cases heqc
      case h_2 heqc =>
        split at hout
        case h_1 e w₁ hcl =>
          subst hout
          exact absurd hres (by simp)
        case h_2 w₁ hcl =>
          dsimp only at hout
          have hWF₁ := cloneRepo_ok w w₁ hWF hcl
          split at hout
          case h_1 e w₂ haf =>
            subst hout
            exact absurd hres (by simp)
          case h_2 w₂ haf =>
            have hWF₂ : WFWorld w₂ := by
              split at haf
              · have hx : w₁ = w₂ := by simpa using haf
                subst hx
                exact hWF₁
              · have hx := fetchRefOrAll_wf w₁ h hWF₁
                rw [haf] at hx
                exact hx
            split at hout
            case h_1 e w₃ hco =>
              subst hout
              exact absurd hres (by simp)
            case h_2 w₃ hco =>
              obtain ⟨hWF₃, hobj₃, hh₂, hres₂, hrefs₃⟩ :=
                checkoutOp_ok w₂ h true w₃ hWF₂ hco
              have hh₂h : hh₂ = h := by
                have hx := resolveHash_self w₂ hWF₂ h hh₂ hh hres₂
                exact hx
              rw [hh₂h] at hrefs₃
              have hhd : resolveHash w₃ "HEAD" = some h := by
                rw [resolveHash_head_eq_lookup w₃ hWF₃.2.1, hrefs₃]
                exact lookupA_setA_self _ _ _
              split at hout
              case h_1 hrn =>
                rw [hhd] at hrn
                cases hrn
              case h_2 headHash hr₃ =>
                subst hout
                have hfin : headHash = h := by
                  rw [hhd] at hr₃
                  injection hr₃ with hr₃
                  exact hr₃.symm
                exact ⟨(resultAt_ok _ _ _ hres).trans hfin, fun _ => hhd⟩

theorem gitSet_hash_contract (w : GitWorld) (repo h : String) (opts : SetOpts)
    (hWF : WFWorld w) (hh : isHash h = true) :
    ∀ res, (GitSet w repo h opts).res = .ok res →
      res.commitHash = h ∧
      (opts.Checkout = .checkoutTrue →
        resolveHash (GitSet w repo h opts).w "HEAD" = some h) := by
  intro res hres
  unfold GitSet at hres ⊢
  by_cases hp : w.present = true
  · rw [if_pos hp] at hres ⊢
    exact gitSetPresent_hash_contract w repo h opts hWF hh _ rfl res hres
  · rw [if_neg hp] at hres ⊢
    exact gitSetAbsent_hash_contract w repo h opts hWF hh _ rfl res hres

theorem conformRef_recorded (ss : SessionState) (key ref₁ h : String)
    (hrec : lookupA ss.hashes key = some h) : conformRef ss key ref₁ = h := by
  unfold conformRef
  rw [hrec]
  dsimp only
  by_cases hne : ref₁ ≠ h
  · rw [if_pos hne]
  · rw [if_neg hne]
    exact not_not.mp hne

theorem sessionSet_delegatedRef (w : GitWorld) (ss : SessionState)
    (repo ref : String) (f : SessionOptFetch) (r : SessionOptReset)
    (c : OptCheckout) (d : Nat) (v : Bool) :
    (sessionSet w ss repo ref f r c d v).delegatedRef =
      conformRef ss (repo ++ "@" ++ ref) (trimPre "tags/" ref) := by
  unfold sessionSet
  dsimp only
  split <;> rfl

theorem sessionSet_ok_shape (w : GitWorld) (ss : SessionState)
    (repo ref : String) (f : SessionOptFetch) (r : SessionOptReset)
    (c : OptCheckout) (d : Nat) (v : Bool) (res : SetResult)
    (hres : (sessionSet w ss repo ref f r c d v).res = .ok res) :
    (GitSet w repo (conformRef ss (repo ++ "@" ++ ref) (trimPre "tags/" ref))
      ⟨sessionFetchOpt (lookupA ss.hashes (repo ++ "@" ++ ref)).isSome f,
       sessionResetOpt ss.hashes.isEmpty r, c, d, v⟩).res = .ok res ∧
    (sessionSet w ss repo ref f r c d v).ss.hashes =
      setA ss.hashes (repo ++ "@" ++ ref) res.commitHash ∧
    (sessionSet w ss repo ref f r c d v).w =
      (GitSet w repo (conformRef ss (repo ++ "@" ++ ref) (trimPre "tags/" ref))
        ⟨sessionFetchOpt (lookupA ss.hashes (repo ++ "@" ++ ref)).isSome f,
         sessionResetOpt ss.hashes.isEmpty r, c, d, v⟩).w := by
  unfold sessionSet at hres ⊢
  dsimp only at hres ⊢
  cases hG : (GitSet w repo (conformRef ss (repo ++ "@" ++ ref) (trimPre "tags/" ref))
      ⟨sessionFetchOpt (lookupA ss.hashes (repo ++ "@" ++ ref)).isSome f,
       sessionResetOpt ss.hashes.isEmpty r, c, d, v⟩).res with
  | error e =>
    rw [hG] at hres
    exact absurd hres (by simp)
  | ok result =>
    rw [hG] at hres
    dsimp only at hres
    injection hres with hres₂
    subst hres₂
    exact ⟨rfl, by dsimp only, by dsimp only⟩

/-- C2: once a hash is recorded for the key `repo@ref` in a session,
every later `Set`/`Resolve` of that key delegates with the reference
conformed to the recorded hash, and — whatever the upstream world looks
like by then — a successful call returns a commit with exactly that
hash, keeps exactly that hash recorded, and (when checking out) leaves
the worktree HEAD at that hash. -/
theorem C2_session_hash_stability (w : GitWorld) (ss : SessionState)
    (repo ref h : String) (f : SessionOptFetch) (r : SessionOptReset)
    (c : OptCheckout) (d : Nat) (v : Bool)
    (hWF : WFWorld w)
    (hrec : lookupA ss.hashes (repo ++ "@" ++ ref) = some h)
    (hh : isHash h = true) :
    (sessionSet w ss repo ref f r c d v).delegatedRef = h ∧
    ∀ res, (sessionSet w ss repo ref f r c d v).res = .ok res →
      res.commitHash = h ∧
      lookupA (sessionSet w ss repo ref f r c d v).ss.hashes (repo ++ "@" ++ ref) =
        some h ∧
      (c = .checkoutTrue →
        resolveHash (sessionSet w ss repo ref f r c d v).w "HEAD" = some h) := by
  have hconf := conformRef_recorded ss (repo ++ "@" ++ ref) (trimPre "tags/" ref) h hrec
  constructor
  · rw [sessionSet_delegatedRef, hconf]
  · intro res hres
    obtain ⟨hG, hss, hw⟩ := sessionSet_ok_shape w ss repo ref f r c d v res hres
    rw [hconf] at hG hw
    have hcontract := gitSet_hash_contract w repo h
      ⟨sessionFetchOpt (lookupA ss.hashes (repo ++ "@" ++ ref)).isSome f,
       sessionResetOpt ss.hashes.isEmpty r, c, d, v⟩ hWF hh res hG
    refine ⟨hcontract.1, ?_, ?_⟩
    · rw [hss, hcontract.1]
      exact lookupA_setA_self _ _ _
    · intro hc
      rw [hw]
      exact hcontract.2 hc

/-- An initialised world for the C8 witness. -/
def wit8World : GitWorld :=
  ⟨true, ["6a27bac5e5c379649c5b4574845744957cd6c749"],
   [("HEAD", "6a27bac5e5c379649c5b4574845744957cd6c749"),
    ("main", "6a27bac5e5c379649c5b4574845744957cd6c749")],
   some "6a27bac5e5c379649c5b4574845744957cd6c749", true, true, true, [], []⟩

/-- An empty session for the C8 witness. -/
def wit8Session : SessionState := ⟨[]⟩

/-- Witness for C8 at an initialised world: the equality and the
no-checkout guarantees instantiated concretely. -/
theorem C8_resolve_equals_set_without_checkout_witness :
    SessionResolve wit8World wit8Session "github.com/foo/bar" "main"
        ⟨.fetchFirst, 0⟩ =
      ((sessionSet wit8World wit8Session "github.com/foo/bar" "main"
          .fetchFirst .resetFalse .checkoutFalse 0 false).res,
       (sessionSet wit8World wit8Session "github.com/foo/bar" "main"
          .fetchFirst .resetFalse .checkoutFalse 0 false).w,
       (sessionSet wit8World wit8Session "github.com/foo/bar" "main"
          .fetchFirst .resetFalse .checkoutFalse 0 false).ss) ∧
    (sessionSet wit8World wit8Session "github.com/foo/bar" "main"
      .fetchFirst .resetFalse .checkoutFalse 0 false).didCheckout = false ∧
    (sessionSet wit8World wit8Session "github.com/foo/bar" "main"
      .fetchFirst .resetFalse .checkoutFalse 0 false).w.checkedOut =
      wit8World.checkedOut ∧
    (sessionSet wit8World wit8Session "github.com/foo/bar" "main"
      .fetchFirst .resetFalse .checkoutFalse 0 false).w.clean = wit8World.clean ∧
    (sessionSet wit8World wit8Session "github.com/foo/bar" "main"
      .fetchFirst .resetFalse .checkoutFalse 0 false).w.dirNonEmpty =
      wit8World.dirNonEmpty := by
  have hmain := C8_resolve_equals_set_without_checkout wit8World wit8Session
    "github.com/foo/bar" "main" ⟨.fetchFirst, 0⟩
  have hpres := hmain.2.2 (by rfl)
  exact ⟨hmain.1, hmain.2.1, hpres.1, hpres.2.1, hpres.2.2⟩

/-- The recorded hash of the C2 witness scenario. -/
def hashStable : String := "6a27bac5e5c379649c5b4574845744957cd6c749"

/-- A well-formed world whose repository is initialised at
`hashStable`. -/
def wStable : GitWorld :=
  ⟨true, [hashStable], [("HEAD", hashStable), ("main", hashStable)],
   some hashStable, true, true, true,
   [("HEAD", hashStable), ("main", hashStable)], [hashStable]⟩

/-- A session that has already recorded `hashStable` for
`github.com/foo/bar@main`. -/
def ssStable : SessionState := ⟨[("github.com/foo/bar@main", hashStable)]⟩

/-- Witness for C2 at a concrete session state: the ref `main` is
conformed to the recorded hash, the returned commit carries it, the
record is unchanged, and the worktree HEAD resolves to it. -/
theorem C2_session_hash_stability_witness :
    (sessionSet wStable ssStable "github.com/foo/bar" "main"
      .fetchFirst .resetFalse .checkoutTrue 0 false).delegatedRef = hashStable ∧
    (SetResult.mk hashStable).commitHash = hashStable ∧
    lookupA (sessionSet wStable ssStable "github.com/foo/bar" "main"
      .fetchFirst .resetFalse .checkoutTrue 0 false).ss.hashes
      "github.com/foo/bar@main" = some hashStable ∧
    resolveHash (sessionSet wStable ssStable "github.com/foo/bar" "main"
      .fetchFirst .resetFalse .checkoutTrue 0 false).w "HEAD" = some hashStable := by
  have hmain := C2_session_hash_stability wStable ssStable "github.com/foo/bar"
    "main" hashStable .fetchFirst .resetFalse .checkoutTrue 0 false
    (by decide) (by rfl) (by decide)
  have hres := hmain.2 ⟨hashStable⟩ (by rfl)
  exact ⟨hmain.1, hres.1, hres.2.1, hres.2.2 rfl⟩

/-! ## Remote-path parsing — `retriever.ParseResource` together with the
remotefs wrapper (`resourceRegexp`, `RemoteFs.ParseResource`).

The Go code delegates to the `regexp` package.  That collaborator is
modelled by a small backtracking matcher with greedy repetition and
leftmost-first alternative order — exactly the submatch semantics the Go
package guarantees — over an AST that transcribes the regex literal
`^((\w+\.)+(\w)+(/[\w-]+){2})((/[\w.-]+)+)(@([-\w./]+))?$`
(character classes reordered here only to suit comment syntax; the
ref class is `[-\w./]`, as exercised by
reader/remotefs/remotefs_test.go).  The matcher is anchored at both
ends, as the `^`/`$` in the pattern demand.  Captures record the
consumed characters of each group, latest entry first, which is how
`FindStringSubmatch` reports the last iteration of a repeated group. -/

/-- Regex AST: character classes, concatenation, capture groups, greedy
`+` and greedy `?`.  `{2}` repetition is transcribed as two copies. -/
inductive Re where
  | cls (p : Char → Bool)
  | seq (a b : Re)
  | grp (i : Nat) (r : Re)
  | plus (r : Re)
  | opt (r : Re)

/-- Submatch store: group index to consumed characters, latest first. -/
def Caps := List (Nat × List Char)

/-- The backtracking matcher.  `k consumed rest caps` continues after a
sub-match; fuel bounds the recursion depth (generous in `reMatch`). -/
def mat : Nat → Re → List Char → Caps →
    (List Char → List Char → Caps → Option Caps) → Option Caps
  | 0, _, _, _, _ => none
  | fuel+1, re, s, caps, k =>
    match re with
    | .cls p =>
      match s with
      | [] => none
      | c :: rest => if p c then k [c] rest caps else none
    | .seq a b =>
      mat fuel a s caps (fun c₁ r₁ caps₁ =>
        mat fuel b r₁ caps₁ (fun c₂ r₂ caps₂ => k (c₁ ++ c₂) r₂ caps₂))
    | .grp i r =>
      mat fuel r s caps (fun c₁ r₁ caps₁ => k c₁ r₁ ((i, c₁) :: caps₁))
    | .plus r =>
      mat fuel r s caps (fun c₁ r₁ caps₁ =>
        (mat fuel (.plus r) r₁ caps₁
          (fun c₂ r₂ caps₂ => k (c₁ ++ c₂) r₂ caps₂)) <|>
        k c₁ r₁ caps₁)
    | .opt r => (mat fuel r s caps k) <|> k [] s caps

/-- Go `\w`: `[0-9A-Za-z_]`. -/
def wordChar (c : Char) : Bool := c.isAlpha || c.isDigit || c == '_'

/-- `[\w-]` — repository path segments. -/
def wDash (c : Char) : Bool := wordChar c || c == '-'

/-- `[\w.-]` — file path segments. -/
def wDotDash (c : Char) : Bool := wordChar c || c == '.' || c == '-'

/-- `[-\w./]` (slash placed before the dash in the source) — the ref token,
slash included. -/
def refChar (c : Char) : Bool :=
  wordChar c || c == '.' || c == '/' || c == '-'

/-- A literal character. -/
def chrRe (c : Char) : Re := .cls (fun x => x == c)

/-- A repository path segment `(/[\w-]+)` — group 4. -/
def segRe : Re := .grp 4 (.seq (chrRe '/') (.plus (.cls wDash)))

/-- The repository part `((\w+\.)+(\w)+(/[\w-]+){2})` — group 1, with
the host blocks as group 2, the final host label's characters as group 3
and the two path segments as group 4. -/
def repoRe : Re :=
  .grp 1 (.seq (.plus (.grp 2 (.seq (.plus (.cls wordChar)) (chrRe '.'))))
    (.seq (.plus (.grp 3 (.cls wordChar)))
      (.seq segRe segRe)))

/-- A file path segment `(/[\w.-]+)` — group 6. -/
def pathSegRe : Re := .grp 6 (.seq (chrRe '/') (.plus (.cls wDotDash)))

/-- The file path part `((/[\w.-]+)+)` — group 5. -/
def pathRe : Re := .grp 5 (.plus pathSegRe)

/-- The optional ref part `(@(…))?` — group 7, ref token as group 8. -/
def refRe : Re :=
  .opt (.grp 7 (.seq (chrRe '@') (.grp 8 (.plus (.cls refChar)))))

/-- The AST of `resourceRegexp`
`^((\w+\.)+(\w)+(/[\w-]+){2})((/[\w.-]+)+)(@([-\w./]+))?$`
(ref class reordered to suit comment syntax) with the
group numbering of the Go pattern: 1 repo, 5 path, 8 ref. -/
def resourceRegexp : Re := .seq repoRe (.seq pathRe refRe)

/-- Anchored match with submatches (`MatchString` succeeds iff the
result is `some`; the captures model `FindStringSubmatch`). -/
def reMatch (re : Re) (s : List Char) : Option Caps :=
  mat (10 * s.length + 100) re s []
    (fun _ rest caps => if rest.isEmpty then some caps else none)

/-- `m[i]` of `FindStringSubmatch`: the latest capture of group `i`,
empty for a group that did not participate. -/
def lookupN : Caps → Nat → Option (List Char)
  | [], _ => none
  | (i, v) :: rest, j => if i == j then some v else lookupN rest j

/-- `strings.TrimPrefix` on character lists. -/
def trimPreL (p s : List Char) : List Char :=
  if p.isPrefixOf s then s.drop p.length else s

/-- `retriever.ParseResource` from src/retriever/retriever.go, applied
to an already-compiled regex: reject non-matching strings, build the
reference from the ref token (hash, else symbolic, else HEAD), trim the
leading slash off the path. -/
def ParseResourceRe (str : List Char) (re : Re)
    (repoidx pathidx refidx : Nat) : Except String Resource :=
  match reMatch re str with
  | none => .error "doesn't match resource regexp"
  | some m =>
    let reftok : List Char := (lookupN m refidx).getD []
    let refE : Except String Reference :=
      if isHash ⟨reftok⟩ then
        match NewHash ⟨reftok⟩ with
        | .error e => .error e
        | .ok hsh => NewHashReference hsh
      else if reftok.isEmpty then .ok HEADReference
      else .ok (NewSymbolicReference ⟨reftok⟩)
    match refE with
    | .error e => .error e
    | .ok ref =>
      .ok ⟨⟨(lookupN m repoidx).getD []⟩,
           ⟨trimPreL ['/'] ((lookupN m pathidx).getD [])⟩, some ref⟩

/-- `RemoteFs.ParseResource`: strip an optional leading `//` and parse
with `resourceRegexp` at indices 1 (repo), 5 (path), 8 (ref). -/
def RemoteFsParseResource (str : List Char) : Except String Resource :=
  ParseResourceRe (trimPreL ['/', '/'] str) resourceRegexp 1 5 8

/-! ### Evaluation lemmas for the matcher -/

/-- The second alternative is dropped when it is `none`. -/
theorem orElse_none {A : Type} (x : Option A) : (x <|> none) = x := by
  cases x <;> rfl

/-- The first alternative is dropped when it is `none`. -/
theorem none_orElse {A : Type} (x : Option A) : (none <|> x) = x := rfl

/-- A class fails on a character outside it, at any fuel. -/
theorem mat_cls_fail (p : Char → Bool) (c : Char) (f : Nat) (s : List Char)
    (caps : Caps) (k : List Char → List Char → Caps → Option Caps)
    (h : p c = false) : mat f (.cls p) (c :: s) caps k = none := by
  cases f with
  | zero => rfl
  | succ f => simp [mat, h]

/-- A class fails on the empty input, at any fuel. -/
theorem mat_cls_nil (p : Char → Bool) (f : Nat) (caps : Caps)
    (k : List Char → List Char → Caps → Option Caps) :
    mat f (.cls p) [] caps k = none := by
  cases f with
  | zero => rfl
  | succ f => rfl

/-- A class consumes one matching character. -/
theorem mat_cls_step (p : Char → Bool) (c : Char) (f : Nat) (s : List Char)
    (caps : Caps) (k : List Char → List Char → Caps → Option Caps)
    (h : p c = true) : mat (f + 1) (.cls p) (c :: s) caps k = k [c] s caps := by
  simp [mat, h]

/-- One-step unfolding of `+`. -/
theorem mat_plus_unfold (r : Re) (f : Nat) (s : List Char) (caps : Caps)
    (k : List Char → List Char → Caps → Option Caps) :
    mat (f + 1) (.plus r) s caps k =
      mat f r s caps (fun c₁ r₁ caps₁ =>
        (mat f (.plus r) r₁ caps₁
          (fun c₂ r₂ caps₂ => k (c₁ ++ c₂) r₂ caps₂)) <|> k c₁ r₁ caps₁) := rfl

/-- Greedy `+` over a class fails outright when the first character is
outside the class, at any fuel. -/
theorem mat_plus_cls_fail (p : Char → Bool) (c : Char) (f : Nat)
    (s : List Char) (caps : Caps)
    (k : List Char → List Char → Caps → Option Caps)
    (h : p c = false) : mat f (.plus (.cls p)) (c :: s) caps k = none := by
  cases f with
  | zero => rfl
  | succ f => rw [mat_plus_unfold]; exact mat_cls_fail _ _ _ _ _ _ h

/-- Greedy `+` over a class fails on the empty input, at any fuel. -/
theorem mat_plus_cls_nil (p : Char → Bool) (f : Nat) (caps : Caps)
    (k : List Char → List Char → Caps → Option Caps) :
    mat f (.plus (.cls p)) [] caps k = none := by
  cases f with
  | zero => rfl
  | succ f => rw [mat_plus_unfold]; exact mat_cls_nil _ _ _ _

/-- Greedy `+` over a character class consumes exactly the maximal run:
if every character of `u` lies in the class, the character after `u` (if
any) does not, and the continuation fails whenever the rest still starts
with a class character (so every backtracking alternative dies), then
matching `u ++ v` hands the continuation exactly `u`. -/
theorem mat_plus_cls_run (p : Char → Bool) (u : List Char) :
    ∀ (v : List Char) (f : Nat) (caps : Caps)
      (k : List Char → List Char → Caps → Option Caps),
      u ≠ [] → (∀ c ∈ u, p c = true) →
      (∀ c r, v = c :: r → p c = false) →
      (∀ u₁ c r cp, p c = true → k u₁ (c :: r) cp = none) →
      2 * u.length + 2 ≤ f →
      mat f (.plus (.cls p)) (u ++ v) caps k = k u v caps := by
  induction u with
  | nil => intro v f caps k hne; exact absurd rfl hne
  | cons c u ih =>
    intro v f caps k _ hchars hv hkfail hfuel
    simp only [List.length_cons] at hfuel
    obtain ⟨g, rfl⟩ : ∃ m, f = m + 2 := ⟨f - 2, by omega⟩
    rw [List.cons_append, mat_plus_unfold,
      mat_cls_step p c _ _ _ _ (hchars c (List.mem_cons_self c u))]
    cases u with
    | nil =>
      rw [List.nil_append]
      cases v with
      | nil => rw [mat_plus_cls_nil]; rfl
      | cons d w =>
        rw [mat_plus_cls_fail p d _ _ _ _ (hv d w rfl)]; rfl
    | cons e u' =>
      have he : p e = true := hchars e (by simp)
      rw [List.cons_append,
        hkfail [c] e (u' ++ v) caps he]
      rw [orElse_none]
      have hrun := ih v (g + 1) caps
        (fun c₂ r₂ cp₂ => k ([c] ++ c₂) r₂ cp₂)
        (by simp) (fun d hd => hchars d (List.mem_cons_of_mem c hd)) hv
        (fun u₁ d r cp hd => hkfail ([c] ++ u₁) d r cp hd)
        (by simp only [List.length_cons] at hfuel ⊢; omega)
      rw [← List.cons_append, hrun]
      rfl

/-- One-step unfolding of concatenation. -/
theorem mat_seq_unfold (a b : Re) (f : Nat) (s : List Char) (caps : Caps)
    (k : List Char → List Char → Caps → Option Caps) :
    mat (f + 1) (.seq a b) s caps k =
      mat f a s caps (fun c₁ r₁ caps₁ =>
        mat f b r₁ caps₁ (fun c₂ r₂ caps₂ => k (c₁ ++ c₂) r₂ caps₂)) := rfl

/-- One-step unfolding of a capture group. -/
theorem mat_grp_unfold (i : Nat) (r : Re) (f : Nat) (s : List Char)
    (caps : Caps) (k : List Char → List Char → Caps → Option Caps) :
    mat (f + 1) (.grp i r) s caps k =
      mat f r s caps (fun c₁ r₁ caps₁ => k c₁ r₁ ((i, c₁) :: caps₁)) := rfl

/-- One-step unfolding of `?`. -/
theorem mat_opt_unfold (r : Re) (f : Nat) (s : List Char) (caps : Caps)
    (k : List Char → List Char → Caps → Option Caps) :
    mat (f + 1) (.opt r) s caps k = (mat f r s caps k <|> k [] s caps) := rfl

/-- A repository-segment character is never the slash that opens the
next segment. -/
theorem wDash_ne_slash (c : Char) (h : wDash c = true) : (c == '/') = false := by
  cases hc : c == '/' with
  | false => rfl
  | true => rw [eq_of_beq hc] at h; exact absurd h (by decide)

/-- A file-path-segment character is never a slash. -/
theorem wDotDash_ne_slash (c : Char) (h : wDotDash c = true) :
    (c == '/') = false := by
  cases hc : c == '/' with
  | false => rfl
  | true => rw [eq_of_beq hc] at h; exact absurd h (by decide)

/-- A file-path-segment character is never the `@` that opens the ref. -/
theorem wDotDash_ne_at (c : Char) (h : wDotDash c = true) :
    (c == '@') = false := by
  cases hc : c == '@' with
  | false => rfl
  | true => rw [eq_of_beq hc] at h; exact absurd h (by decide)

/-- `pathSegRe` fails whenever the input does not open with `/`. -/
theorem pathSegRe_fail (c : Char) (f : Nat) (s : List Char) (caps : Caps)
    (k : List Char → List Char → Caps → Option Caps)
    (h : (c == '/') = false) : mat f pathSegRe (c :: s) caps k = none := by
  cases f with
  | zero => rfl
  | succ f =>
    cases f with
    | zero => rfl
    | succ f =>
      rw [pathSegRe, mat_grp_unfold, mat_seq_unfold, chrRe]
      exact mat_cls_fail _ _ _ _ _ _ h

/-- A repeated `pathSegRe` fails whenever the input does not open
with `/`. -/
theorem pathPlus_fail (c : Char) (f : Nat) (s : List Char) (caps : Caps)
    (k : List Char → List Char → Caps → Option Caps)
    (h : (c == '/') = false) :
    mat f (.plus pathSegRe) (c :: s) caps k = none := by
  cases f with
  | zero => rfl
  | succ f => rw [mat_plus_unfold]; exact pathSegRe_fail _ _ _ _ _ h

/-- `pathRe` fails whenever the input does not open with `/`. -/
theorem pathRe_fail (c : Char) (f : Nat) (s : List Char) (caps : Caps)
    (k : List Char → List Char → Caps → Option Caps)
    (h : (c == '/') = false) : mat f pathRe (c :: s) caps k = none := by
  cases f with
  | zero => rfl
  | succ f =>
    rw [pathRe, mat_grp_unfold]
    exact pathPlus_fail _ _ _ _ _ h

/-- The path-then-ref remainder of the pattern fails whenever the input
does not open with `/`. -/
theorem seqPathRef_fail (c : Char) (f : Nat) (s : List Char) (caps : Caps)
    (k : List Char → List Char → Caps → Option Caps)
    (h : (c == '/') = false) :
    mat f (.seq pathRe refRe) (c :: s) caps k = none := by
  cases f with
  | zero => rfl
  | succ f =>
    rw [mat_seq_unfold]
    exact pathRe_fail _ _ _ _ _ h

/-- `refRe` yields nothing on an input that opens with a non-`@`
character, provided the continuation also fails there (the `$` anchor
behind an optional group). -/
theorem refRe_fail (c : Char) (f : Nat) (s : List Char) (caps : Caps)
    (k : List Char → List Char → Caps → Option Caps)
    (h : (c == '@') = false) (hk : ∀ u cp, k u (c :: s) cp = none) :
    mat f refRe (c :: s) caps k = none := by
  have hbody : ∀ (g : Nat) (cp : Caps)
      (k₂ : List Char → List Char → Caps → Option Caps),
      mat g (.grp 7 (.seq (chrRe '@') (.grp 8 (.plus (.cls refChar)))))
        (c :: s) cp k₂ = none := by
    intro g cp k₂
    cases g with
    | zero => rfl
    | succ g =>
      rw [mat_grp_unfold]
      cases g with
      | zero => rfl
      | succ g =>
        rw [mat_seq_unfold, chrRe]
        exact mat_cls_fail _ _ _ _ _ _ h
  cases f with
  | zero => rfl
  | succ f =>
    rw [refRe, mat_opt_unfold, hbody, hk]
    rfl

/-- The anchoring continuation of `reMatch` (accept iff at end of input). -/
def endK : List Char → List Char → Caps → Option Caps :=
  fun _ rest caps => if rest.isEmpty then some caps else none

/-- `reMatch` in terms of `endK`. -/
theorem reMatch_unfold (re : Re) (s : List Char) :
    reMatch re s = mat (10 * s.length + 100) re s [] endK := rfl

/-- A literal character consumes itself. -/
theorem chr_step (c : Char) (f : Nat) (s : List Char) (caps : Caps)
    (k : List Char → List Char → Caps → Option Caps) :
    mat (f + 1) (chrRe c) (c :: s) caps k = k [c] s caps := by
  simp [chrRe, mat]

/-- A word character is never the literal dot. -/
theorem wordChar_ne_dot (c : Char) (h : wordChar c = true) :
    (c == '.') = false := by
  cases hc : c == '.' with
  | false => rfl
  | true => rw [eq_of_beq hc] at h; exact absurd h (by decide)

/-- A word character is never a slash. -/
theorem wordChar_ne_slash (c : Char) (h : wordChar c = true) :
    (c == '/') = false := by
  cases hc : c == '/' with
  | false => rfl
  | true => rw [eq_of_beq hc] at h; exact absurd h (by decide)

/-- `segRe` fails whenever the input does not open with `/`. -/
theorem segRe_fail (c : Char) (f : Nat) (s : List Char) (caps : Caps)
    (k : List Char → List Char → Caps → Option Caps)
    (h : (c == '/') = false) : mat f segRe (c :: s) caps k = none := by
  cases f with
  | zero => rfl
  | succ f =>
    cases f with
    | zero => rfl
    | succ f =>
      rw [segRe, mat_grp_unfold, mat_seq_unfold, chrRe]
      exact mat_cls_fail _ _ _ _ _ _ h

/-- The two repository segments fail on anything but a slash. -/
theorem seqSegSeg_fail (c : Char) (f : Nat) (s : List Char) (caps : Caps)
    (k : List Char → List Char → Caps → Option Caps)
    (h : (c == '/') = false) :
    mat f (.seq segRe segRe) (c :: s) caps k = none := by
  cases f with
  | zero => rfl
  | succ f =>
    rw [mat_seq_unfold]
    exact segRe_fail c _ s _ _ h

/-- A repeated captured class fails on a character outside the class,
at any fuel. -/
theorem mat_plus_grp_cls_fail (p : Char → Bool) (i : Nat) (c : Char)
    (f : Nat) (s : List Char) (caps : Caps)
    (k : List Char → List Char → Caps → Option Caps)
    (h : p c = false) :
    mat f (.plus (.grp i (.cls p))) (c :: s) caps k = none := by
  cases f with
  | zero => rfl
  | succ f =>
    rw [mat_plus_unfold]
    cases f with
    | zero => rfl
    | succ f =>
      rw [mat_grp_unfold]
      exact mat_cls_fail _ _ _ _ _ _ h

/-- A second host block cannot start at `com/`: the label munches `com`
and then the mandatory dot meets a slash. -/
theorem hostPlus2_fail (f : Nat) (s : List Char) (caps : Caps)
    (k : List Char → List Char → Caps → Option Caps) (hf : 11 ≤ f) :
    mat f (.plus (.grp 2 (.seq (.plus (.cls wordChar)) (chrRe '.'))))
      ("com".data ++ ('/' :: s)) caps k = none := by
  obtain ⟨g, rfl⟩ : ∃ m, f = m + 3 := ⟨f - 3, by omega⟩
  rw [mat_plus_unfold, mat_grp_unfold, mat_seq_unfold]
  rw [mat_plus_cls_run wordChar "com".data ('/' :: s)]
  · exact mat_cls_fail _ '/' _ _ _ _ (by decide)
  · decide
  · decide
  · intro c r h
    injection h with h1 h2
    subst h1
    decide
  · intro u₁ c r cp hc
    exact mat_cls_fail _ c _ _ _ _ (wordChar_ne_dot c hc)
  · have h3 : ("com".data).length = 3 := rfl
    rw [h3]; omega

/-- The `(\w)+` part consumes exactly `com` before `/`, capturing its
characters one by one under group 3 (latest first). -/
theorem wplus3_com (f : Nat) (s : List Char) (caps : Caps)
    (k : List Char → List Char → Caps → Option Caps)
    (hkfail : ∀ u₁ c r cp, wordChar c = true → k u₁ (c :: r) cp = none)
    (hf : 12 ≤ f) :
    mat f (.plus (.grp 3 (.cls wordChar))) ("com".data ++ ('/' :: s)) caps k =
      k "com".data ('/' :: s)
        ((3, ['m']) :: (3, ['o']) :: (3, ['c']) :: caps) := by
  obtain ⟨g, rfl⟩ : ∃ m, f = m + 9 := ⟨f - 9, by omega⟩
  rw [show "com".data ++ ('/' :: s) = 'c' :: 'o' :: 'm' :: '/' :: s from rfl]
  rw [mat_plus_unfold, mat_grp_unfold,
    mat_cls_step wordChar 'c' _ _ _ _ (by decide)]
  rw [hkfail _ 'o' _ _ (by decide), orElse_none]
  rw [mat_plus_unfold, mat_grp_unfold,
    mat_cls_step wordChar 'o' _ _ _ _ (by decide)]
  rw [hkfail _ 'm' _ _ (by decide), orElse_none]
  rw [mat_plus_unfold, mat_grp_unfold,
    mat_cls_step wordChar 'm' _ _ _ _ (by decide)]
  rw [mat_plus_grp_cls_fail wordChar 3 '/' _ _ _ _ (by decide), none_orElse]
  rfl

/-- `mat_plus_cls_run` at the end of the input. -/
theorem mat_plus_cls_run_nil (p : Char → Bool) (u : List Char) (f : Nat)
    (caps : Caps) (k : List Char → List Char → Caps → Option Caps)
    (hne : u ≠ []) (hchars : ∀ c ∈ u, p c = true)
    (hkfail : ∀ u₁ c r cp, p c = true → k u₁ (c :: r) cp = none)
    (hfuel : 2 * u.length + 2 ≤ f) :
    mat f (.plus (.cls p)) u caps k = k u [] caps := by
  have h := mat_plus_cls_run p u [] f caps k hne hchars
    (fun c r hh => List.noConfusion hh) hkfail hfuel
  rw [List.append_nil] at h
  exact h

/-- A repository segment consumes `/u` exactly, capturing it as group 4. -/
theorem segRun (u v : List Char) (f : Nat) (caps : Caps)
    (k : List Char → List Char → Caps → Option Caps)
    (hne : u ≠ []) (hchars : ∀ c ∈ u, wDash c = true)
    (hv : ∀ c r, v = c :: r → wDash c = false)
    (hkfail : ∀ u₁ c r cp, wDash c = true → k u₁ (c :: r) cp = none)
    (hf : 2 * u.length + 5 ≤ f) :
    mat f segRe ('/' :: (u ++ v)) caps k =
      k ('/' :: u) v ((4, '/' :: u) :: caps) := by
  obtain ⟨g, rfl⟩ : ∃ m, f = m + 3 := ⟨f - 3, by omega⟩
  rw [segRe, mat_grp_unfold, mat_seq_unfold, chr_step]
  rw [mat_plus_cls_run wDash u v (g + 1) _ _ hne hchars hv _ (by omega)]
  · rfl
  · intro u₁ c r cp hc
    exact hkfail _ c r _ hc

/-- A file path segment consumes `/u` exactly, capturing it as group 6. -/
theorem pathSegRun (u v : List Char) (f : Nat) (caps : Caps)
    (k : List Char → List Char → Caps → Option Caps)
    (hne : u ≠ []) (hchars : ∀ c ∈ u, wDotDash c = true)
    (hv : ∀ c r, v = c :: r → wDotDash c = false)
    (hkfail : ∀ u₁ c r cp, wDotDash c = true → k u₁ (c :: r) cp = none)
    (hf : 2 * u.length + 5 ≤ f) :
    mat f pathSegRe ('/' :: (u ++ v)) caps k =
      k ('/' :: u) v ((6, '/' :: u) :: caps) := by
  obtain ⟨g, rfl⟩ : ∃ m, f = m + 3 := ⟨f - 3, by omega⟩
  rw [pathSegRe, mat_grp_unfold, mat_seq_unfold, chr_step]
  rw [mat_plus_cls_run wDotDash u v (g + 1) _ _ hne hchars hv _ (by omega)]
  · rfl
  · intro u₁ c r cp hc
    exact hkfail _ c r _ hc

/-- The capture list `FindStringSubmatch` produces on
`github.com/foo/bar/file@` followed by a ref token `t`. -/
def slashRefCaps (t : List Char) : Caps :=
  [(7, '@' :: t), (8, t), (5, "/file".data), (6, "/file".data),
   (1, "github.com/foo/bar".data), (4, "/bar".data), (4, "/foo".data),
   (3, ['m']), (3, ['o']), (3, ['c']), (2, "github.".data)]

set_option linter.unusedTactic false in
/-- `resourceRegexp` matches `github.com/foo/bar/file@t` for every
non-empty ref token `t` drawn from the ref class, with the expected
submatches.  The match is evaluated by rewriting: literal runs are
consumed by the greedy-run lemmas, dead iteration attempts are collapsed
by the failure lemmas, and the final comparison is definitional. -/
theorem reMatch_slash_ref (t : List Char) (hne : t ≠ [])
    (hchars : ∀ c ∈ t, refChar c = true) :
    reMatch resourceRegexp ("github.com/foo/bar/file@".data ++ t) =
      some (slashRefCaps t) := by
  rw [reMatch_unfold, List.length_append,
    show ("github.com/foo/bar/file@".data).length = 24 from rfl,
    show 10 * (24 + t.length) + 100 = 10 * t.length + 340 from by ring]
  unfold resourceRegexp repoRe
  rw [mat_seq_unfold, mat_grp_unfold, mat_seq_unfold, mat_plus_unfold,
    mat_grp_unfold, mat_seq_unfold]
  rw [show "github.com/foo/bar/file@".data ++ t =
      "github".data ++ ('.' :: ("com/foo/bar/file@".data ++ t)) from rfl]
  rw [mat_plus_cls_run wordChar "github".data
      ('.' :: ("com/foo/bar/file@".data ++ t)) (10 * t.length + 334) _ _
      (by decide) (by decide)
      (by intro c r h; injection h with h1 h2; subst h1; decide) _
      (by have h6 : ("github".data).length = 6 := rfl; rw [h6]; omega)]
  beta_reduce
  rw [chr_step]
  beta_reduce
  rw [show "com/foo/bar/file@".data ++ t =
      "com".data ++ ('/' :: ("foo/bar/file@".data ++ t)) from rfl]
  rw [hostPlus2_fail (10 * t.length + 336) ("foo/bar/file@".data ++ t) _ _
      (by omega), none_orElse]
  beta_reduce
  rw [mat_seq_unfold]
  rw [wplus3_com (10 * t.length + 336) ("foo/bar/file@".data ++ t) _ _ _
      (by omega)]
  beta_reduce
  rw [mat_seq_unfold]
  rw [show "foo/bar/file@".data ++ t =
      "foo".data ++ ('/' :: ("bar/file@".data ++ t)) from rfl]
  rw [segRun "foo".data ('/' :: ("bar/file@".data ++ t))
      (10 * t.length + 335) _ _ (by decide) (by decide)
      (by intro c r h; injection h with h1 h2; subst h1; decide) _
      (by have h3 : ("foo".data).length = 3 := rfl; rw [h3]; omega)]
  beta_reduce
  rw [show "bar/file@".data ++ t =
      "bar".data ++ ('/' :: ("file@".data ++ t)) from rfl]
  rw [segRun "bar".data ('/' :: ("file@".data ++ t))
      (10 * t.length + 335) _ _ (by decide) (by decide)
      (by intro c r h; injection h with h1 h2; subst h1; decide) _
      (by have h3 : ("bar".data).length = 3 := rfl; rw [h3]; omega)]
  beta_reduce
  rw [mat_seq_unfold]
  unfold pathRe
  rw [mat_grp_unfold, mat_plus_unfold]
  rw [show "file@".data ++ t = "file".data ++ ('@' :: t) from rfl]
  rw [pathSegRun "file".data ('@' :: t) (10 * t.length + 336) _ _
      (by decide) (by decide)
      (by intro c r h; injection h with h1 h2; subst h1; decide) _
      (by have h4 : ("file".data).length = 4 := rfl; rw [h4]; omega)]
  beta_reduce
  rw [pathPlus_fail '@' (10 * t.length + 336) t _ _ (by decide), none_orElse]
  beta_reduce
  unfold refRe
  rw [mat_opt_unfold, mat_grp_unfold, mat_seq_unfold, chr_step]
  beta_reduce
  rw [mat_grp_unfold]
  rw [mat_plus_cls_run_nil refChar t (10 * t.length + 334) _ _ hne hchars _
      (by omega)]
  · rfl
  · intro u₁ c r cp hc
    rfl
  · intro u₁ c r cp hc
    beta_reduce
    rw [pathPlus_fail c (10 * t.length + 336) r _ _ (wDotDash_ne_slash c hc),
      none_orElse]
    beta_reduce
    exact refRe_fail c _ r _ _ (wDotDash_ne_at c hc) (fun u₂ cp₂ => rfl)
  · intro u₁ c r cp hc
    exact seqPathRef_fail c _ r _ _ (wDash_ne_slash c hc)
  · intro u₁ c r cp hc
    exact segRe_fail c _ r _ _ (wDash_ne_slash c hc)
  · intro u₁ c r cp hc
    exact seqSegSeg_fail c _ r _ _ (wordChar_ne_slash c hc)
  · intro u₁ c r cp hc
    exact mat_cls_fail _ c _ _ _ _ (wordChar_ne_dot c hc)

/-- A token containing a slash is never accepted by `isHash`: under the
length-40 guard the unanchored window is the whole string, and `/` is
not a hex character. -/
theorem isHash_slash_false (t : List Char) (hslash : '/' ∈ t) :
    isHash ⟨t⟩ = false := by
  show ((t.length == 40) &&
    (List.range (t.length - 39)).any
      (fun i => ((t.drop i).take 40).all isHexChar)) = false
  cases hlen : t.length == 40 with
  | false => rw [Bool.false_and]
  | true =>
    rw [Bool.true_and]
    have h40 : t.length = 40 := eq_of_beq hlen
    rw [h40, show (40 : Nat) - 39 = 1 from rfl,
      show List.range 1 = [0] from rfl]
    simp only [List.any_cons, List.any_nil, Bool.or_false, List.drop_zero]
    rw [List.take_of_length_le (le_of_eq h40)]
    cases hall : t.all isHexChar with
    | false => rfl
    | true =>
      have := (List.all_eq_true.mp hall) '/' hslash
      exact absurd this (by decide)

/-- C9: a remote path whose trailing `@`-ref token contains a slash is
accepted by `RemoteFs.ParseResource`, and the resulting resource's
reference is the symbolic (non-hash, non-HEAD) reference named by that
token. -/
theorem C9_slash_ref_parses_symbolic (t : List Char) (hne : t ≠ [])
    (hchars : ∀ c ∈ t, refChar c = true) (hslash : '/' ∈ t) :
    RemoteFsParseResource ("//github.com/foo/bar/file@".data ++ t) =
      .ok ⟨"github.com/foo/bar", "file", some (NewSymbolicReference ⟨t⟩)⟩ ∧
    (NewSymbolicReference ⟨t⟩).IsHash = false ∧
    (NewSymbolicReference ⟨t⟩).IsHEAD = false ∧
    (NewSymbolicReference ⟨t⟩).name = ⟨t⟩ := by
  have hempty : t.isEmpty = false := by
    cases t with
    | nil => exact absurd rfl hne
    | cons a l => rfl
  have hhead : ((⟨t⟩ : String) == "HEAD") = false := by
    cases hb : (⟨t⟩ : String) == "HEAD" with
    | false => rfl
    | true =>
      have ht : t = "HEAD".data := congrArg String.data (eq_of_beq hb)
      rw [ht] at hslash
      exact absurd hslash (by decide)
  refine ⟨?_, by simp [NewSymbolicReference, Reference.IsHash, Hash.IsZero],
    ?_, rfl⟩
  · show ParseResourceRe ("github.com/foo/bar/file@".data ++ t)
      resourceRegexp 1 5 8 = _
    unfold ParseResourceRe
    rw [reMatch_slash_ref t hne hchars]
    dsimp only
    rw [show (lookupN (slashRefCaps t) 8).getD [] = t from rfl,
      isHash_slash_false t hslash, hempty]
    rfl
  · simp [NewSymbolicReference, Reference.IsHEAD, HEAD, hhead]

/-- Witness for C9 at the ref token `feature/foo.bar` (the example from
reader/remotefs/remotefs_test.go). -/
theorem C9_slash_ref_parses_symbolic_witness :
    ('/' ∈ "feature/foo.bar".data) ∧
    (RemoteFsParseResource
        ("//github.com/foo/bar/file@".data ++ "feature/foo.bar".data) =
      .ok ⟨"github.com/foo/bar", "file",
           some (NewSymbolicReference ⟨"feature/foo.bar".data⟩)⟩ ∧
     (NewSymbolicReference ⟨"feature/foo.bar".data⟩).IsHash = false ∧
     (NewSymbolicReference ⟨"feature/foo.bar".data⟩).IsHEAD = false ∧
     (NewSymbolicReference ⟨"feature/foo.bar".data⟩).name =
       ⟨"feature/foo.bar".data⟩) :=
  ⟨by decide, C9_slash_ref_parses_symbolic "feature/foo.bar".data
    (by decide) (by decide) (by decide)⟩

end GoldenRetriever
